import Mathlib

/-!
Verification of the radicle-surf file-system module.

Two formulations exist in the repository:
* `Surf`: the recursive formulation of `src/file_system/mod.rs`
  (`Directory` as a label plus a non-empty list of entries).
* `SurfT`: the indexed formulation of `src/file_system/directory.rs`,
  whose underlying generic tree engine (`crate::tree`) is not part of the
  sources provided; it is modelled from the specification where noted.

Rust `NonEmpty<T>` is the pair of a head element and a vector of further
elements; it is embedded as an explicit head plus a `List`.
-/

set_option autoImplicit false

namespace Surf

/-- A label for directories and files; `Label(pub String)` in the source. -/
abbrev Label := String

/-- The root label `"~"` (`Label::root`). -/
def Label.rootL : Label := "~"

/-- A non-empty sequence of labels (`Path(pub NonEmpty<Label>)`), embedded as
head plus tail exactly like the `nonempty` crate's `NonEmpty(T, Vec<T>)`. -/
structure Path where
  hd : Label
  tl : List Label
  deriving DecidableEq, Repr

/-- The root path, the singleton containing the root label (`Path::root`). -/
def Path.rootP : Path := ⟨Label.rootL, []⟩

/-- `Path::is_root`: equality with the root path. -/
def Path.isRoot (p : Path) : Bool := p = Path.rootP

/-- All labels of the path in order. -/
def Path.toList (p : Path) : List Label := p.hd :: p.tl

/-- `Path::push`: extend the path on the right. -/
def Path.push (p : Path) (l : Label) : Path := ⟨p.hd, p.tl ++ [l]⟩

/-- `NonEmpty::split` as used by `Path::split_last`: for a singleton the
first and last components are the same element and the middle is empty;
otherwise the middle is the tail without its last element. -/
def Path.split (p : Path) : Label × List Label × Label :=
  match p.tl with
  | [] => (p.hd, [], p.hd)
  | x :: xs => (p.hd, (x :: xs).dropLast, (x :: xs).getLast (by simp))

/-- `Path::split_first`: the head label and the rest. -/
def Path.splitFirst (p : Path) : Label × List Label := (p.hd, p.tl)

/-- `Path::split_last`, translated from the source: when the first and last
labels are equal and the middle is empty the first label is dropped. -/
def Path.splitLast (p : Path) : List Label × Label :=
  let (first, middle, last) := p.split
  if first = last ∧ middle = [] then ([], last)
  else (first :: middle, last)

/-- A file: its name and its contents (`File { filename, contents }`);
byte contents are embedded as a list of naturals. -/
structure File where
  filename : Label
  contents : List Nat
  deriving DecidableEq, Repr

mutual
/-- `DirectoryContents`: a sub-directory, a file, or the opaque `Repo` entry. -/
inductive DirectoryContents where
  | subDirectory : Directory → DirectoryContents
  | file : File → DirectoryContents
  | repo : DirectoryContents

/-- `Directory { label, entries: NonEmpty<DirectoryContents> }`; the non-empty
entry collection is embedded as an explicit head entry plus the remaining
entries. -/
inductive Directory where
  | mk : Label → DirectoryContents → List DirectoryContents → Directory
end

/-- The label of a directory. -/
def Directory.label : Directory → Label
  | .mk l _ _ => l

/-- The entries of a directory as a list (head entry followed by the rest). -/
def Directory.entriesList : Directory → List DirectoryContents
  | .mk _ h t => h :: t

/-- `NonEmpty::push` on the entries: append one entry at the end. -/
def Directory.pushEntry : Directory → DirectoryContents → Directory
  | .mk l h t, e => .mk l h (t ++ [e])

/-- `Directory::add_contents`: append a list of entries at the end. -/
def Directory.addContents : Directory → List DirectoryContents → Directory
  | .mk l h t, es => .mk l h (t ++ es)

/-- `Directory::mkdir`: a directory with a single sub-directory entry. -/
def Directory.mkdir (l : Label) (d : Directory) : Directory :=
  .mk l (.subDirectory d) []

/-- `SystemType`: what a directory listing reports for each entry. -/
inductive SystemType where
  | file
  | directory
  deriving DecidableEq, Repr

/-- Is this entry the opaque `Repo` marker? -/
def DirectoryContents.isRepo : DirectoryContents → Bool
  | .repo => true
  | _ => false

/-- How one entry is reported by `list_directory`: files and sub-directories
with their labels, `Repo` entries not at all. -/
def listingOf : DirectoryContents → Option (Label × SystemType)
  | .subDirectory sub => some (sub.label, SystemType.directory)
  | .file f => some (f.filename, SystemType.file)
  | .repo => none

/-- `Directory::list_directory`: the (label, kind) pairs of the file and
sub-directory entries; `Repo` entries are filtered out. -/
def Directory.listDirectory (d : Directory) : List (Label × SystemType) :=
  d.entriesList.filterMap listingOf

/-- The view of one entry as a sub-directory with the given label. -/
def subView (l : Label) : DirectoryContents → Option Directory
  | .subDirectory sub => if sub.label = l then some sub else none
  | _ => none

/-- `Directory::sub_directory`: the first sub-directory entry carrying the
given label, if any. -/
def Directory.subDirectory (d : Directory) (l : Label) : Option Directory :=
  d.entriesList.findSome? (subView l)

/-- The view of one entry as a file with the given name. -/
def fileView (l : Label) : DirectoryContents → Option File
  | .file f => if f.filename = l then some f else none
  | _ => none

/-- `Directory::file_in_directory`: the first file entry carrying the given
name, if any. -/
def Directory.fileInDirectory (d : Directory) (l : Label) : Option File :=
  d.entriesList.findSome? (fileView l)

/-- `Directory::find_directory`: the path's first label must equal the
directory's own label, after which the remaining labels are walked through
`sub_directory` (the `try_fold` of the source). -/
def Directory.findDirectory (d : Directory) (p : Path) : Option Directory :=
  if p.hd = d.label then
    p.tl.foldl (fun acc l => acc.bind fun dir => dir.subDirectory l) (some d)
  else none

/-- `Directory::find_file`: split the path into prefix and file name; search
the current directory when the prefix is empty, otherwise the directory
found at the prefix. -/
def Directory.findFile (d : Directory) (p : Path) : Option File :=
  match p.splitLast with
  | ([], name) => d.fileInDirectory name
  | (l :: ls, name) =>
    (d.findDirectory ⟨l, ls⟩).bind fun dir => dir.fileInDirectory name

/-- Is there a sub-directory entry with the given label? -/
def Directory.hasSubdir (d : Directory) (l : Label) : Bool :=
  (d.subDirectory l).isSome

/-- Rebuild a directory from a label and a non-empty entry list; the default
is returned for the unreachable empty case. -/
def mkOf (dflt : Directory) (l : Label) (es : List DirectoryContents) :
    Directory :=
  match es with
  | [] => dflt
  | h :: t => .mk l h t

/-- Replace the first sub-directory entry labelled `l` by `nd` (the in-place
mutation through `sub_directory_mut` in `Directory::combine`). -/
def replaceSub (es : List DirectoryContents) (l : Label) (nd : Directory) :
    List DirectoryContents :=
  match es with
  | [] => []
  | .subDirectory d :: rest =>
    if d.label = l then .subDirectory nd :: rest
    else .subDirectory d :: replaceSub rest l nd
  | e :: rest => e :: replaceSub rest l nd

/-- The entries of every directory form a structurally smaller value. -/
theorem sizeOf_entriesList_lt (d : Directory) :
    sizeOf d.entriesList < sizeOf d := by
  cases d with
  | mk l h t =>
    simp only [Directory.entriesList]
    have hl : 0 < sizeOf l := by
      cases l
      simp
    simp only [List.cons.sizeOf_spec, Directory.mk.sizeOf_spec]
    omega


mutual
/-- Push the entries `os` one by one into `sub`: files and `Repo` entries are
appended, sub-directories are merged recursively (the `for` loop of
`Directory::combine`). -/
def combineInto (sub : Directory) (os : List DirectoryContents) : Directory :=
  match os with
  | [] => sub
  | .file f :: rest => combineInto (sub.pushEntry (.file f)) rest
  | .repo :: rest => combineInto (sub.pushEntry .repo) rest
  | .subDirectory d :: rest => combineInto (combine sub d) rest
termination_by (sizeOf os, 1)

/-- `Directory::combine`: when a sub-directory with `other`'s label exists,
merge `other`'s entries into it in place; otherwise append `other` as a new
sub-directory entry. -/
def combine (self other : Directory) : Directory :=
  match self.subDirectory other.label with
  | some sub =>
    mkOf self self.label
      (replaceSub self.entriesList other.label
        (combineInto sub other.entriesList))
  | none => self.pushEntry (.subDirectory other)
termination_by (sizeOf other, 0)
decreasing_by
  exact Prod.Lex.left _ _ (sizeOf_entriesList_lt other)
end

/-- `Directory::empty_root`: the root directory containing only the backend's
repository directory. -/
def Directory.emptyRoot (repoDir : Directory) : Directory :=
  Directory.mkdir Label.rootL repoDir

/-- The `TestRepo` backend of the source's test suite: a `".test"` directory
whose only entry is the opaque `Repo` marker. -/
def testRepoDirectory : Directory := .mk ".test" .repo []

/-- A non-empty collection of files, mirroring `NonEmpty<File>`. -/
abbrev Files := File × List File

/-- The files of one mapping entry as a list. -/
def Files.toList (fs : Files) : List File := fs.1 :: fs.2

/-- The labels of the files of one mapping entry. -/
def Files.labels (fs : Files) : List Label := fs.toList.map File.filename

/-- `files.map(DirectoryContents::File)`: the entry list for one mapping
entry. -/
def fileEntries (fs : Files) : List DirectoryContents := fs.toList.map .file

/-- Wrap a directory in nested `mkdir` layers, outermost label first; this is
the reversed-prefix loop of `Directory::from`. -/
def chainD : List Label → Directory → Directory
  | [], d => d
  | l :: ls, d => Directory.mkdir l (chainD ls d)

/-- The base directory built for one non-root mapping entry:
`Directory { label: current, entries: file_entries }`. -/
def baseDir (current : Label) (fs : Files) : Directory :=
  .mk current (.file fs.1) (fs.2.map .file)

/-- One iteration of the loop in `Directory::from`: root-level files are
appended directly, any other entry is combined in as a chain of
directories. -/
def fromStep (root : Directory) (e : Path × Files) : Directory :=
  if e.1.isRoot then root.addContents (fileEntries e.2)
  else combine root (chainD e.1.splitLast.1 (baseDir e.1.splitLast.2 e.2))

/-- `Directory::from`: fold the mapping (modelled as an association list, one
order of iterating the `HashMap`) into the empty root. -/
def Directory.fromList (repoDir : Directory) (m : List (Path × Files)) :
    Directory :=
  m.foldl fromStep (Directory.emptyRoot repoDir)

/-- Walk a directory downward through `sub_directory` along a list of labels;
the observation underlying `find_directory` after its head check. -/
def dirAt (d : Directory) (q : List Label) : Option Directory :=
  q.foldl (fun acc l => acc.bind fun dir => dir.subDirectory l) (some d)

/-- The view of one entry as a file value. -/
def fileOf : DirectoryContents → Option File
  | .file f => some f
  | _ => none

/-- The view of one entry as a sub-directory label. -/
def subLabelOf : DirectoryContents → Option Label
  | .subDirectory s => some s.label
  | _ => none

/-- The view of one entry as a child label (files and sub-directories). -/
def labelOf : DirectoryContents → Option Label
  | .subDirectory s => some s.label
  | .file f => some f.filename
  | .repo => none

/-- The file entries of a directory, in order. -/
def Directory.filesSeq (d : Directory) : List File :=
  d.entriesList.filterMap fileOf

/-- The labels of the sub-directory entries of a directory, in order. -/
def Directory.subLabels (d : Directory) : List Label :=
  d.entriesList.filterMap subLabelOf

/-- The labels of all file and sub-directory entries of a directory, in
order; `Repo` entries carry no label. -/
def Directory.childLabels (d : Directory) : List Label :=
  d.entriesList.filterMap labelOf

/-- The files of the directory reached by walking `q`, or `[]` if the walk
fails. -/
def filesAt (d : Directory) (q : List Label) : List File :=
  ((dirAt d q).map Directory.filesSeq).getD []

/-- The sub-directory labels of the directory reached by walking `q`, or `[]`
if the walk fails. -/
def subLabelsAt (d : Directory) (q : List Label) : List Label :=
  ((dirAt d q).map Directory.subLabels).getD []

/-- The list of branch labels (below the root) under which `Directory::from`
stores one mapping entry: nothing for the root path, otherwise the
`split_last` prefix followed by the `split_last` leaf. -/
def chainFor (p : Path) : List Label :=
  if p.isRoot then [] else p.splitLast.1 ++ [p.splitLast.2]

/-- The files contributed by the mapping entries whose chain is `q`, in
mapping order. -/
def filesFor : List (Path × Files) → List Label → List File
  | [], _ => []
  | e :: m, q =>
    (if chainFor e.1 = q then e.2.toList else []) ++ filesFor m q

/-- The label of the node of the chain `chainD pre (baseDir cur fs)`. -/
def headLbl : List Label → Label → Label
  | [], cur => cur
  | a :: _, _ => a

/-- The labels walked INSIDE the chain `chainD pre (baseDir cur fs)` from
its own node down to the files. -/
def restChain (pre : List Label) (cur : Label) : List Label :=
  match pre with
  | [] => []
  | _ :: pre' => pre' ++ [cur]

/-- Reachability by iterating children: the root itself, or a sub-directory
entry of a reachable directory. -/
inductive ReachD : Directory → Directory → Prop where
  | refl (d : Directory) : ReachD d d
  | child {f d s : Directory} : ReachD f d →
      DirectoryContents.subDirectory s ∈ d.entriesList → ReachD f s

end Surf

namespace SurfT

/-- `File` of `directory.rs`: contents plus the stored byte size. -/
structure File2 where
  contents : List Nat
  size : Nat
  deriving DecidableEq, Repr

/-- `File::new`: store the contents together with their length. -/
def File2.new (c : List Nat) : File2 := ⟨c, c.length⟩

/-- Modelled from the spec: the generic tree engine of `crate::tree` (not
present under src/): a tree entry is either a leaf node holding a file or a
branch holding child entries keyed by labels. -/
inductive SubTree where
  | node (key : Surf.Label) (value : File2)
  | branch (key : Surf.Label) (children : List SubTree)

/-- A forest: the children of one level of the tree engine; the empty forest
is the empty root before any insertion. -/
abbrev Forest := List SubTree

/-- Modelled from the spec: the first branch with the given key, returning
its children. -/
def findBr : Forest → Surf.Label → Option (List SubTree)
  | [], _ => none
  | .branch k cs :: rest, l => if k = l then some cs else findBr rest l
  | .node _ _ :: rest, l => findBr rest l

/-- Decompose a forest around the first branch with the given key. -/
def splitAtBranch (f : Forest) (l : Surf.Label) :
    Option (Forest × List SubTree × Forest) :=
  match f with
  | [] => none
  | .branch k cs :: rest =>
    if k = l then some ([], cs, rest)
    else
      (splitAtBranch rest l).map fun x =>
        (.branch k cs :: x.1, x.2.1, x.2.2)
  | .node k v :: rest =>
    (splitAtBranch rest l).map fun x => (.node k v :: x.1, x.2.1, x.2.2)

/-- Is there a node with the given key at this level? -/
def hasNode : Forest → Surf.Label → Bool
  | [], _ => false
  | .node k _ :: rest, l => k = l || hasNode rest l
  | .branch _ _ :: rest, l => hasNode rest l

/-- The value of the first node with the given key. -/
def findNd : Forest → Surf.Label → Option File2
  | [], _ => none
  | .node k v :: rest, l => if k = l then some v else findNd rest l
  | .branch _ _ :: rest, l => findNd rest l

/-- Replace the value of the first node with the given key. -/
def replaceNodeF : Forest → Surf.Label → File2 → Forest
  | [], _, _ => []
  | .node k w :: rest, l, v =>
    if k = l then .node k v :: rest else .node k w :: replaceNodeF rest l v
  | .branch k cs :: rest, l, v => .branch k cs :: replaceNodeF rest l v

/-- Modelled from the spec: at the final path segment `insert` inserts or
overwrites a node with the leaf. -/
def putNode (f : Forest) (l : Surf.Label) (v : File2) : Forest :=
  if hasNode f l then replaceNodeF f l v else f ++ [.node l v]

/-- Modelled from the spec: `insert` walks the path segment by segment; for a
non-final segment it descends into the existing branch with that key or
creates a new branch, and at the final segment it inserts/overwrites a
node. -/
def insertT (l : Surf.Label) (ls : List Surf.Label) (v : File2) (f : Forest) :
    Forest :=
  match ls with
  | [] => putNode f l v
  | l' :: ls' =>
    match splitAtBranch f l with
    | some x => x.1 ++ [.branch l (insertT l' ls' v x.2.1)] ++ x.2.2
    | none => f ++ [.branch l (insertT l' ls' v [])]

/-- Modelled from the spec: `find_node` walks branches along the path and
looks for a node with the final segment's key. -/
def findNodeT (l : Surf.Label) (ls : List Surf.Label) (f : Forest) :
    Option File2 :=
  match ls with
  | [] => findNd f l
  | l' :: ls' =>
    match findBr f l with
    | some cs => findNodeT l' ls' cs
    | none => none

/-- Modelled from the spec: `find_branch` walks branches along the path and
returns the children of the branch found at the final segment. -/
def findBranchT (l : Surf.Label) (ls : List Surf.Label) (f : Forest) :
    Option (List SubTree) :=
  match ls with
  | [] => findBr f l
  | l' :: ls' =>
    match findBr f l with
    | some cs => findBranchT l' ls' cs
    | none => none

/-- Modelled from the spec: the fold over all leaves reachable from a forest,
summing file sizes; this is the traversal behind `Directory::size`. -/
def sizeT : Forest → Nat
  | [] => 0
  | .node _ v :: rest => v.size + sizeT rest
  | .branch _ cs :: rest => sizeT cs + sizeT rest

/-- Every branch of the forest has a non-empty children collection. -/
def abn : Forest → Bool
  | [] => true
  | .node _ _ :: rest => abn rest
  | .branch _ cs :: rest => (!cs.isEmpty) && abn cs && abn rest

/-- `Location` of `directory.rs`: the root or a named sub-directory. -/
inductive Location where
  | root
  | subDir (l : Surf.Label)
  deriving DecidableEq, Repr

/-- `Directory` of `directory.rs`: a location plus the forest of its
children. -/
structure Directory2 where
  current : Location
  subDirectories : Forest

/-- `Directory::root`: the root directory over the empty forest. -/
def Directory2.rootD : Directory2 := ⟨.root, []⟩

/-- `Directory::list_directory`: nodes are listed as files, branches as
directories, in stored order. -/
def Directory2.listDirectory (d : Directory2) :
    List (Surf.Label × Surf.SystemType) :=
  d.subDirectories.map fun t =>
    match t with
    | .node k _ => (k, Surf.SystemType.file)
    | .branch k _ => (k, Surf.SystemType.directory)

/-- `Directory::find_file` of `directory.rs`: `find_node` on the forest. -/
def Directory2.findFile (d : Directory2) (p : Surf.Path) : Option File2 :=
  findNodeT p.hd p.tl d.subDirectories

/-- `Directory::find_directory` of `directory.rs`: `find_branch` on the
forest, rewrapped with the path's last label as the current location. -/
def Directory2.findDirectory (d : Directory2) (p : Surf.Path) :
    Option Directory2 :=
  (findBranchT p.hd p.tl d.subDirectories).map fun cs =>
    ⟨.subDir p.splitLast.2, cs⟩

/-- `Directory::insert_file`: insert along the full path. -/
def Directory2.insertFile (d : Directory2) (p : Surf.Path) (f : File2) :
    Directory2 :=
  ⟨d.current, insertT p.hd p.tl f d.subDirectories⟩

/-- `Directory::size`: the fold of file sizes over all reachable leaves. -/
def Directory2.size (d : Directory2) : Nat := sizeT d.subDirectories

/-- `DirectoryContents` of `directory.rs`, the output of iterating a
directory. -/
inductive DirContents2 where
  | fileE (name : Surf.Label) (file : File2)
  | dirE (d : Directory2)

/-- `Directory::iter`: the immediate children, nodes as named files and
branches as sub-directories. -/
def Directory2.iterList (d : Directory2) : List DirContents2 :=
  d.subDirectories.map fun t =>
    match t with
    | .node k v => .fileE k v
    | .branch k cs => .dirE ⟨.subDir k, cs⟩

/-- A non-empty collection of named files, mirroring
`NonEmpty<(Label, File)>`. -/
abbrev NamedFiles := (Surf.Label × File2) × List (Surf.Label × File2)

/-- The named files of one mapping entry as a list. -/
def NamedFiles.toList (fs : NamedFiles) : List (Surf.Label × File2) :=
  fs.1 :: fs.2

/-- The inner loop of `Directory::from_hash_map`: insert each named file at
the directory path extended by its name; files of the root path are
inserted at the singleton path of their name. -/
def fromEntry (d : Directory2) (path : Surf.Path)
    (nf : List (Surf.Label × File2)) : Directory2 :=
  nf.foldl
    (fun acc nfile =>
      if path.isRoot then acc.insertFile ⟨nfile.1, []⟩ nfile.2
      else acc.insertFile (path.push nfile.1) nfile.2)
    d

/-- `Directory::from_hash_map`: fold the mapping (modelled as an association
list, one order of iterating the `HashMap`) into the root directory. -/
def Directory2.fromHashMap (m : List (Surf.Path × NamedFiles)) : Directory2 :=
  m.foldl (fun acc e => fromEntry acc e.1 e.2.toList) Directory2.rootD

/-- Reachability between directories of the indexed formulation: a directory
itself, any directory returned by `find_directory`, and any sub-directory
yielded when iterating children. -/
inductive Reach2 : Directory2 → Directory2 → Prop where
  | refl (d : Directory2) : Reach2 d d
  | find {a b c : Directory2} {p : Surf.Path} :
      Reach2 a b → b.findDirectory p = some c → Reach2 a c
  | child {a b c : Directory2} :
      Reach2 a b → DirContents2.dirE c ∈ b.iterList → Reach2 a c

/-- The full label path at which one named file of a mapping entry is
inserted by `from_hash_map`. -/
def fullPathOf (p : Surf.Path) (n : Surf.Label) :
    Surf.Label × List Surf.Label :=
  if p.isRoot then (n, []) else (p.hd, p.tl ++ [n])

/-- The full insertion paths of one mapping entry. -/
def entryFulls (e : Surf.Path × NamedFiles) :
    List (Surf.Label × List Surf.Label) :=
  e.2.toList.map fun nf => fullPathOf e.1 nf.1

/-- The full insertion paths of a whole mapping. -/
def fullPaths : List (Surf.Path × NamedFiles) →
    List (Surf.Label × List Surf.Label)
  | [] => []
  | e :: m => entryFulls e ++ fullPaths m

/-- The sum of the stored sizes of one entry's files. -/
def entrySize (e : Surf.Path × NamedFiles) : Nat :=
  (e.2.toList.map fun nf => nf.2.size).sum

/-- The sum of the stored sizes of all files of a mapping. -/
def totalSize (m : List (Surf.Path × NamedFiles)) : Nat :=
  (m.map entrySize).sum

/-- Recover the directory-path key from a full insertion path. -/
def keyOf (q : Surf.Label × List Surf.Label) : Surf.Path :=
  if q.2 = [] then Surf.Path.rootP else ⟨q.1, q.2.dropLast⟩

end SurfT

namespace Surf

/-- A successful walk from a directory down a list of labels, each step
resolving through `sub_directory`. -/
inductive DirWalk : Directory → List Label → Directory → Prop where
  | nil (d : Directory) : DirWalk d [] d
  | cons {d d' d'' : Directory} {l : Label} {ls : List Label} :
      d.subDirectory l = some d' → DirWalk d' ls d'' → DirWalk d (l :: ls) d''

mutual
/-- `Grows d d'`: the directory `d'` is `d` after in-place merging: the label
is unchanged, each original entry is still present in place (sub-directories
possibly grown), and new entries may be appended at the end. -/
inductive Grows : Directory → Directory → Prop where
  | mk {l : Label} {h h' : DirectoryContents} {t t' extra : List DirectoryContents} :
      GrowsC h h' → List.Forall₂ GrowsC t t' →
      Grows (.mk l h t) (.mk l h' (t' ++ extra))

/-- Entry-wise growth: files and `Repo` markers are unchanged,
sub-directories grow. -/
inductive GrowsC : DirectoryContents → DirectoryContents → Prop where
  | file {f : File} : GrowsC (.file f) (.file f)
  | repo : GrowsC .repo .repo
  | dir {d d' : Directory} : Grows d d' → GrowsC (.subDirectory d) (.subDirectory d')
end

end Surf

namespace Surf

theorem findSome?_isSome_iff {α β : Type} (g : α → Option β) (es : List α) :
    (es.findSome? g).isSome ↔ ∃ a ∈ es, (g a).isSome := by
  induction es with
  | nil => simp [List.findSome?]
  | cons e es ih =>
    rw [List.findSome?_cons]
    cases hg : g e with
    | some b => simp [hg]
    | none => simp [hg, ih]

theorem fileInDirectory_isSome_iff (d : Directory) (n : Label) :
    (d.fileInDirectory n).isSome ↔
      ∃ f : File, DirectoryContents.file f ∈ d.entriesList ∧ f.filename = n := by
  unfold Directory.fileInDirectory
  rw [findSome?_isSome_iff]
  constructor
  · rintro ⟨e, he, hsome⟩
    cases e with
    | file f =>
      refine ⟨f, he, ?_⟩
      by_contra hne
      simp [fileView, hne] at hsome
    | subDirectory sub => simp [fileView] at hsome
    | repo => simp [fileView] at hsome
  · rintro ⟨f, hf, hname⟩
    exact ⟨.file f, hf, by simp [fileView, hname]⟩

theorem foldWalk_none (ls : List Label) :
    ls.foldl (fun acc l => acc.bind fun dir => dir.subDirectory l)
      (none : Option Directory) = none := by
  induction ls with
  | nil => rfl
  | cons l ls ih => simpa using ih

theorem foldWalk_iff (ls : List Label) (d d'' : Directory) :
    ls.foldl (fun acc l => acc.bind fun dir => dir.subDirectory l) (some d) =
      some d'' ↔ DirWalk d ls d'' := by
  induction ls generalizing d with
  | nil =>
    simp only [List.foldl_nil, Option.some.injEq]
    constructor
    · rintro rfl; exact .nil d
    · rintro h; cases h; rfl
  | cons l ls ih =>
    rw [List.foldl_cons,
      show ((some d).bind fun dir => dir.subDirectory l) = d.subDirectory l
        from rfl]
    cases hsub : d.subDirectory l with
    | none =>
      rw [foldWalk_none]
      constructor
      · intro h; exact Option.noConfusion h
      · rintro (_ | ⟨hstep, _⟩)
        exact Option.noConfusion (hsub.symm.trans hstep)
    | some d' =>
      rw [ih]
      constructor
      · exact fun h => .cons hsub h
      · rintro (_ | ⟨hstep, hrest⟩)
        injection hsub.symm.trans hstep with hdd
        rw [hdd]
        exact hrest

theorem findDirectory_eq_some_iff (d d' : Directory) (p : Path) :
    d.findDirectory p = some d' ↔ p.hd = d.label ∧ DirWalk d p.tl d' := by
  unfold Directory.findDirectory
  by_cases h : p.hd = d.label
  · simp only [h, if_true]
    rw [foldWalk_iff]
    simp [h]
  · simp [h]

theorem findFile_eq_nil (d : Directory) (p : Path) (name : Label)
    (hs : p.splitLast = ([], name)) :
    d.findFile p = d.fileInDirectory name := by
  unfold Directory.findFile
  rw [hs]

theorem findFile_eq_cons (d : Directory) (p : Path) (l name : Label)
    (ls : List Label) (hs : p.splitLast = (l :: ls, name)) :
    d.findFile p =
      (d.findDirectory ⟨l, ls⟩).bind fun dir => dir.fileInDirectory name := by
  unfold Directory.findFile
  rw [hs]

/-- C2: split_last behaves as claimed on a single segment and on a path with
interior segments, but on the two-segment path with equal first and last
labels the code collapses the prefix to empty, contradicting the claim's
requirement that only the exact single-segment case collapses. -/
theorem c2_splitLast_two_equal_segments :
    Path.splitLast ⟨"x", ["x"]⟩ = ([], "x") ∧
    Path.splitLast ⟨"x", []⟩ = ([], "x") ∧
    Path.splitLast ⟨"foo", ["bar"]⟩ = (["foo"], "bar") ∧
    Path.splitLast ⟨"x", ["y", "x"]⟩ = (["x", "y"], "x") :=
  ⟨rfl, rfl, rfl, rfl⟩

/-- C9: in the recursive formulation, `find_directory` requires the path's
first label to equal the receiving directory's own label; any other path
returns `None` even when a matching child exists. -/
theorem c9_findDirectory_requires_own_label (d : Directory) (p : Path)
    (h : p.hd ≠ d.label) : d.findDirectory p = none := by
  unfold Directory.findDirectory
  simp [h]

/-- C9 witness: a root-labelled directory with a child named foo still
rejects the path [foo]. -/
theorem c9_witness :
    (⟨"foo", []⟩ : Path).hd ≠
      (Directory.mk "~" (.subDirectory (.mk "foo" .repo [])) []).label ∧
    (Directory.mk "~" (.subDirectory (.mk "foo" .repo []))
      []).findDirectory ⟨"foo", []⟩ = none :=
  ⟨by decide, c9_findDirectory_requires_own_label _ _ (by decide)⟩

theorem listing_length (es : List DirectoryContents) :
    (es.filterMap listingOf).length =
      (es.filter fun e => !e.isRepo).length := by
  induction es with
  | nil => rfl
  | cons e es ih =>
    cases e <;> simp [listingOf, DirectoryContents.isRepo, ih]

theorem listing_all_repo (es : List DirectoryContents)
    (h : ∀ e ∈ es, e = DirectoryContents.repo) : es.filterMap listingOf = [] := by
  induction es with
  | nil => rfl
  | cons e es ih =>
    have he := h e (by simp)
    subst he
    simp only [List.filterMap_cons, listingOf]
    exact ih fun e hmem => h e (by simp [hmem])

/-- C10: `list_directory` reports exactly one (label, kind) pair for every
file or sub-directory entry and nothing for `Repo` entries; in particular a
directory whose entries are all `Repo` lists zero children. -/
theorem c10_listDirectory_hides_repo (d : Directory) :
    (∀ l t, (l, t) ∈ d.listDirectory ↔
      ((t = SystemType.directory ∧ ∃ sub : Directory,
        DirectoryContents.subDirectory sub ∈ d.entriesList ∧ sub.label = l) ∨
       (t = SystemType.file ∧ ∃ f : File,
        DirectoryContents.file f ∈ d.entriesList ∧ f.filename = l))) ∧
    d.listDirectory.length = (d.entriesList.filter fun e => !e.isRepo).length ∧
    ((∀ e ∈ d.entriesList, e = DirectoryContents.repo) →
      d.listDirectory = []) := by
  unfold Directory.listDirectory
  refine ⟨fun l t => ?_, listing_length _, listing_all_repo _⟩
  rw [List.mem_filterMap]
  constructor
  · rintro ⟨e, he, hsome⟩
    cases e with
    | subDirectory sub =>
      simp only [listingOf, Option.some.injEq, Prod.mk.injEq] at hsome
      exact Or.inl ⟨hsome.2.symm, sub, he, hsome.1⟩
    | file f =>
      simp only [listingOf, Option.some.injEq, Prod.mk.injEq] at hsome
      exact Or.inr ⟨hsome.2.symm, f, he, hsome.1⟩
    | repo => simp [listingOf] at hsome
  · rintro (⟨ht, sub, hmem, hl⟩ | ⟨ht, f, hmem, hl⟩)
    · exact ⟨.subDirectory sub, hmem, by simp [listingOf, hl, ht]⟩
    · exact ⟨.file f, hmem, by simp [listingOf, hl, ht]⟩

/-- C10 witness: the repository directory of the test backend has one entry
but lists zero children. -/
theorem c10_witness :
    testRepoDirectory.listDirectory = [] ∧
    testRepoDirectory.entriesList.length = 1 :=
  ⟨(c10_listDirectory_hides_repo testRepoDirectory).2.2
    (by
      intro e he
      simp only [testRepoDirectory, Directory.entriesList,
        List.mem_singleton] at he
      exact he),
   rfl⟩

/-- C6: lookups are total functions into `Option`; `find_directory` succeeds
exactly when the path starts with the directory's label and every further
segment resolves through `sub_directory`, and `find_file` succeeds exactly
when the prefix produced by `split_last` resolves to a directory containing
a file entry with the final name; all missing or kind-mismatched segments
therefore yield `none` rather than a failure. -/
theorem c6_lookups_signal_absence (d : Directory) (p : Path) :
    ((d.findDirectory p).isSome ↔
      p.hd = d.label ∧ ∃ d' : Directory, DirWalk d p.tl d') ∧
    ((d.findFile p).isSome ↔
      (∃ name, p.splitLast = ([], name) ∧ ∃ f : File,
        DirectoryContents.file f ∈ d.entriesList ∧ f.filename = name) ∨
      (∃ l ls name, p.splitLast = (l :: ls, name) ∧ l = d.label ∧
        ∃ d' : Directory, DirWalk d ls d' ∧ ∃ f : File,
          DirectoryContents.file f ∈ d'.entriesList ∧ f.filename = name)) := by
  constructor
  · rw [Option.isSome_iff_exists]
    constructor
    · rintro ⟨d', hd'⟩
      rw [findDirectory_eq_some_iff] at hd'
      exact ⟨hd'.1, d', hd'.2⟩
    · rintro ⟨hhd, d', hw⟩
      exact ⟨d', (findDirectory_eq_some_iff d d' p).2 ⟨hhd, hw⟩⟩
  · cases hs : p.splitLast with
    | mk pre name =>
      cases pre with
      | nil =>
        rw [findFile_eq_nil d p name hs, fileInDirectory_isSome_iff]
        constructor
        · intro hex
          exact Or.inl ⟨name, rfl, hex⟩
        · rintro (⟨name', heq, hex⟩ | ⟨l, ls, name', heq, _⟩)
          · simp only [Prod.mk.injEq] at heq
            rw [heq.2]
            exact hex
          · simp at heq
      | cons l ls =>
        rw [findFile_eq_cons d p l name ls hs]
        constructor
        · intro hsome
          rw [Option.isSome_iff_exists] at hsome
          obtain ⟨f, hf⟩ := hsome
          cases hdir : d.findDirectory ⟨l, ls⟩ with
          | none =>
            rw [hdir] at hf
            exact Option.noConfusion hf
          | some dir =>
            rw [hdir] at hf
            rw [findDirectory_eq_some_iff] at hdir
            have hfis : (dir.fileInDirectory name).isSome := by
              rw [Option.isSome_iff_exists]
              exact ⟨f, hf⟩
            exact Or.inr ⟨l, ls, name, rfl, hdir.1, dir, hdir.2,
              (fileInDirectory_isSome_iff dir name).1 hfis⟩
        · rintro (⟨name', heq, _⟩ | ⟨l', ls', name', heq, hlab, d', hw, hex⟩)
          · simp at heq
          · simp only [Prod.mk.injEq, List.cons.injEq] at heq
            obtain ⟨⟨hl1, hl2⟩, hn⟩ := heq
            subst hl1
            subst hl2
            subst hn
            have hdir : d.findDirectory ⟨l, ls⟩ = some d' :=
              (findDirectory_eq_some_iff d d' ⟨l, ls⟩).2 ⟨hlab, hw⟩
            rw [hdir,
              show ((some d').bind fun dir => dir.fileInDirectory name) =
                d'.fileInDirectory name from rfl]
            rw [fileInDirectory_isSome_iff]
            exact hex

end Surf

namespace Surf

theorem forall2_append_split {α : Type} {R : α → α → Prop}
    {as bs cs : List α} (h : List.Forall₂ R (as ++ bs) cs) :
    ∃ cs1 cs2, cs = cs1 ++ cs2 ∧ List.Forall₂ R as cs1 ∧
      List.Forall₂ R bs cs2 := by
  induction as generalizing cs with
  | nil => exact ⟨[], cs, rfl, .nil, h⟩
  | cons a as ih =>
    cases h with
    | cons ha htail =>
      obtain ⟨cs1, cs2, rfl, h1, h2⟩ := ih htail
      exact ⟨_ :: cs1, cs2, rfl, .cons ha h1, h2⟩

mutual
theorem growsC_refl (e : DirectoryContents) : GrowsC e e :=
  match e with
  | .file _ => .file
  | .repo => .repo
  | .subDirectory d => .dir (grows_refl d)
termination_by (sizeOf e, 0)

theorem grows_refl (d : Directory) : Grows d d :=
  match d with
  | .mk l h t => by
    have : Grows (.mk l h t) (.mk l h (t ++ [])) :=
      Grows.mk (growsC_refl h) (growsList_refl t)
    simpa using this
termination_by (sizeOf d, 1)

theorem growsList_refl (es : List DirectoryContents) :
    List.Forall₂ GrowsC es es :=
  match es with
  | [] => .nil
  | e :: rest => .cons (growsC_refl e) (growsList_refl rest)
termination_by (sizeOf es, 0)
end

mutual
theorem growsC_trans {a b c : DirectoryContents} (h1 : GrowsC a b)
    (h2 : GrowsC b c) : GrowsC a c :=
  match a, b, c, h1, h2 with
  | .file _, _, _, .file, .file => .file
  | .repo, _, _, .repo, .repo => .repo
  | .subDirectory _, _, _, .dir g1, .dir g2 => .dir (grows_trans g1 g2)
termination_by (sizeOf a, 0)

theorem grows_trans {a b c : Directory} (h1 : Grows a b) (h2 : Grows b c) :
    Grows a c :=
  match a, b, c, h1, h2 with
  | .mk l h t, .mk _ h' _, _, .mk hc1 hf1, .mk hc2 hf2 => by
    obtain ⟨u, v, huv, hfu, _⟩ := forall2_append_split hf2
    rw [huv, List.append_assoc]
    exact Grows.mk (growsC_trans hc1 hc2) (growsList_trans hf1 hfu)
termination_by (sizeOf a, 1)

theorem growsList_trans {as bs cs : List DirectoryContents}
    (h1 : List.Forall₂ GrowsC as bs) (h2 : List.Forall₂ GrowsC bs cs) :
    List.Forall₂ GrowsC as cs :=
  match as, bs, cs, h1, h2 with
  | [], _, _, .nil, .nil => .nil
  | _ :: _, _ :: _, _ :: _, .cons ha htl, .cons hb htl' =>
    .cons (growsC_trans ha hb) (growsList_trans htl htl')
termination_by (sizeOf as, 0)
end

theorem grows_pushEntry (d : Directory) (e : DirectoryContents) :
    Grows d (d.pushEntry e) := by
  cases d with
  | mk l h t => exact Grows.mk (growsC_refl h) (growsList_refl t)

theorem grows_addContents (d : Directory) (es : List DirectoryContents) :
    Grows d (d.addContents es) := by
  cases d with
  | mk l h t => exact Grows.mk (growsC_refl h) (growsList_refl t)

theorem grows_label {d d' : Directory} (h : Grows d d') :
    d'.label = d.label := by
  cases h; rfl

theorem replaceSub_file (f : File) (es : List DirectoryContents) (l : Label)
    (nd : Directory) :
    replaceSub (.file f :: es) l nd = .file f :: replaceSub es l nd := rfl

theorem replaceSub_repo (es : List DirectoryContents) (l : Label)
    (nd : Directory) :
    replaceSub (.repo :: es) l nd = .repo :: replaceSub es l nd := rfl

theorem replaceSub_sub_eq {d : Directory} {l : Label} (es : List DirectoryContents)
    (nd : Directory) (h : d.label = l) :
    replaceSub (.subDirectory d :: es) l nd = .subDirectory nd :: es := by
  rw [replaceSub, if_pos h]

theorem replaceSub_sub_ne {d : Directory} {l : Label} (es : List DirectoryContents)
    (nd : Directory) (h : ¬d.label = l) :
    replaceSub (.subDirectory d :: es) l nd =
      .subDirectory d :: replaceSub es l nd := by
  rw [replaceSub, if_neg h]

theorem replaceSub_cons_shape (e : DirectoryContents)
    (es : List DirectoryContents) (l : Label) (nd : Directory) :
    ∃ e' es', replaceSub (e :: es) l nd = e' :: es' := by
  cases e with
  | subDirectory d =>
    by_cases hl : d.label = l
    · exact ⟨_, _, replaceSub_sub_eq es nd hl⟩
    · exact ⟨_, _, replaceSub_sub_ne es nd hl⟩
  | file f => exact ⟨_, _, replaceSub_file f es l nd⟩
  | repo => exact ⟨_, _, replaceSub_repo es l nd⟩

/-- A directory grows into another one when labels agree and entries are
pointwise grown (with nothing appended). -/
theorem grows_of_entries {a b : Directory} (hl : b.label = a.label)
    (hf : List.Forall₂ GrowsC a.entriesList b.entriesList) : Grows a b := by
  cases a with
  | mk l h t =>
    cases b with
    | mk l' h' t' =>
      simp only [Directory.label] at hl
      rw [Directory.entriesList, Directory.entriesList] at hf
      cases hf with
      | cons hch hct =>
        rw [hl]
        have h2 : Grows (Directory.mk l h t) (.mk l h' (t' ++ [])) :=
          Grows.mk hch hct
        simpa using h2

theorem replaceSub_grows {es : List DirectoryContents} {l : Label}
    {d nd : Directory} (h : es.findSome? (subView l) = some d)
    (hg : Grows d nd) : List.Forall₂ GrowsC es (replaceSub es l nd) := by
  induction es with
  | nil => simp [List.findSome?] at h
  | cons e rest ih =>
    rw [List.findSome?_cons] at h
    cases e with
    | subDirectory d0 =>
      by_cases hlab : d0.label = l
      · simp only [subView, hlab, if_true, Option.some.injEq] at h
        subst h
        rw [replaceSub, if_pos hlab]
        exact .cons (.dir hg) (growsList_refl rest)
      · simp only [subView, hlab, if_false] at h
        rw [replaceSub, if_neg hlab]
        exact .cons (growsC_refl _) (ih h)
    | file f =>
      simp only [subView] at h
      exact .cons (growsC_refl _) (ih h)
    | repo =>
      simp only [subView] at h
      exact .cons (growsC_refl _) (ih h)

/-- In the merge case, `combine` keeps the label and replaces the first
matching sub-directory entry by the merged one. -/
theorem combine_merge_entries {self other sub : Directory}
    (hsub : self.subDirectory other.label = some sub) :
    (combine self other).label = self.label ∧
    (combine self other).entriesList =
      replaceSub self.entriesList other.label
        (combineInto sub other.entriesList) := by
  rw [combine, hsub]
  show (mkOf self self.label
      (replaceSub self.entriesList other.label
        (combineInto sub other.entriesList))).label = self.label ∧
    (mkOf self self.label
      (replaceSub self.entriesList other.label
        (combineInto sub other.entriesList))).entriesList =
      replaceSub self.entriesList other.label
        (combineInto sub other.entriesList)
  cases self with
  | mk l h t =>
    obtain ⟨e', es', hshape⟩ :=
      replaceSub_cons_shape h t other.label (combineInto sub other.entriesList)
    rw [show (Directory.mk l h t).entriesList = h :: t from rfl, hshape,
      show ∀ dflt lab, mkOf dflt lab (e' :: es') = .mk lab e' es'
        from fun _ _ => rfl]
    simp [Directory.label, Directory.entriesList]

/-- In the fresh case, `combine` appends `other` as one new sub-directory
entry. -/
theorem combine_push {self other : Directory}
    (hsub : self.subDirectory other.label = none) :
    combine self other = self.pushEntry (.subDirectory other) := by
  rw [combine, hsub]

mutual
theorem combineInto_grows (sub : Directory) (os : List DirectoryContents) :
    Grows sub (combineInto sub os) :=
  match os with
  | [] => by rw [combineInto]; exact grows_refl sub
  | .file f :: rest => by
    rw [combineInto]
    exact grows_trans (grows_pushEntry sub (.file f))
      (combineInto_grows (sub.pushEntry (.file f)) rest)
  | .repo :: rest => by
    rw [combineInto]
    exact grows_trans (grows_pushEntry sub .repo)
      (combineInto_grows (sub.pushEntry .repo) rest)
  | .subDirectory d :: rest => by
    rw [combineInto]
    exact grows_trans (combine_grows sub d)
      (combineInto_grows (combine sub d) rest)
termination_by (sizeOf os, 1)

theorem combine_grows (self other : Directory) :
    Grows self (combine self other) :=
  match hsub : self.subDirectory other.label with
  | some sub => by
    have hme := combine_merge_entries hsub
    exact grows_of_entries hme.1
      (hme.2 ▸ replaceSub_grows hsub (combineInto_grows sub other.entriesList))
  | none => by
    rw [combine_push hsub]
    exact grows_pushEntry self (.subDirectory other)
termination_by (sizeOf other, 0)
decreasing_by
  exact Prod.Lex.left _ _ (sizeOf_entriesList_lt other)
end

end Surf

namespace Surf

theorem grows_destruct {a b : Directory} (h : Grows a b) :
    b.label = a.label ∧ ∃ es' extra, b.entriesList = es' ++ extra ∧
      List.Forall₂ GrowsC a.entriesList es' := by
  cases h with
  | mk hch hct => exact ⟨rfl, _ :: _, _, rfl, .cons hch hct⟩

theorem growsC_fileView {e e' : DirectoryContents} (h : GrowsC e e')
    (n : Label) : fileView n e' = fileView n e := by
  cases h <;> simp [fileView]

theorem findSome?_fileView_forall2 {es es' : List DirectoryContents}
    (h : List.Forall₂ GrowsC es es') (n : Label) :
    es'.findSome? (fileView n) = es.findSome? (fileView n) := by
  induction h with
  | nil => rfl
  | cons hc htl ih =>
    rw [List.findSome?_cons, List.findSome?_cons, growsC_fileView hc, ih]

theorem findSome?_append_some {α β : Type} (g : α → Option β) {as : List α}
    (bs : List α) {b : β} (h : as.findSome? g = some b) :
    (as ++ bs).findSome? g = some b := by
  induction as with
  | nil => simp [List.findSome?] at h
  | cons a rest ih =>
    rw [List.cons_append, List.findSome?_cons]
    rw [List.findSome?_cons] at h
    cases hg : g a with
    | some x => rw [hg] at h; exact h
    | none => rw [hg] at h; exact ih h

theorem grows_fileInDirectory {d d' : Directory} {n : Label} {f : File}
    (hg : Grows d d') (hf : d.fileInDirectory n = some f) :
    d'.fileInDirectory n = some f := by
  obtain ⟨hl, es', extra, hent, hfa⟩ := grows_destruct hg
  unfold Directory.fileInDirectory at hf ⊢
  rw [hent]
  apply findSome?_append_some
  rw [findSome?_fileView_forall2 hfa]
  exact hf

theorem growsC_subView {e e' : DirectoryContents} (h : GrowsC e e')
    (l : Label) :
    (subView l e = none → subView l e' = none) ∧
    (∀ s, subView l e = some s → ∃ s', subView l e' = some s' ∧ Grows s s') := by
  cases h with
  | file => simp [subView]
  | repo => simp [subView]
  | dir hg =>
    rename_i d d'
    constructor
    · intro hn
      by_cases hdl : d.label = l
      · simp [subView, hdl] at hn
      · simp [subView, hdl, grows_label hg]
    · intro s hs
      by_cases hdl : d.label = l
      · simp only [subView, hdl, if_true, Option.some.injEq] at hs
        subst hs
        refine ⟨d', ?_, hg⟩
        simp [subView, grows_label hg, hdl]
      · simp [subView, hdl] at hs

theorem findSome?_subView_forall2 {es es' : List DirectoryContents}
    (h : List.Forall₂ GrowsC es es') (l : Label) :
    (es.findSome? (subView l) = none → es'.findSome? (subView l) = none) ∧
    (∀ s, es.findSome? (subView l) = some s →
      ∃ s', es'.findSome? (subView l) = some s' ∧ Grows s s') := by
  induction es generalizing es' with
  | nil =>
    cases h
    simp [List.findSome?]
  | cons a tl ih =>
    cases h with
    | cons hc htl =>
      rename_i b tl'
      obtain ⟨hnone, hsome⟩ := growsC_subView hc l
      obtain ⟨ihn, ihs⟩ := ih htl
      constructor
      · intro hn
        rw [List.findSome?_cons] at hn ⊢
        cases hsv : subView l a with
        | some s => rw [hsv] at hn; exact Option.noConfusion hn
        | none =>
          rw [hsv] at hn
          rw [hnone hsv]
          exact ihn hn
      · intro s hs
        rw [List.findSome?_cons] at hs ⊢
        cases hsv : subView l a with
        | some s0 =>
          rw [hsv] at hs
          injection hs with hs0
          obtain ⟨s', hs', hgs⟩ := hsome s0 hsv
          exact ⟨s', by rw [hs'], hs0 ▸ hgs⟩
        | none =>
          rw [hsv] at hs
          obtain ⟨s', hs', hgs⟩ := ihs s hs
          rw [hnone hsv]
          exact ⟨s', hs', hgs⟩

theorem grows_subDirectory {d d' s : Directory} {l : Label} (hg : Grows d d')
    (hs : d.subDirectory l = some s) :
    ∃ s', d'.subDirectory l = some s' ∧ Grows s s' := by
  obtain ⟨hl, es', extra, hent, hfa⟩ := grows_destruct hg
  unfold Directory.subDirectory at hs ⊢
  rw [hent]
  obtain ⟨s', hs', hgs⟩ := (findSome?_subView_forall2 hfa l).2 s hs
  exact ⟨s', findSome?_append_some _ _ hs', hgs⟩

theorem dirAt_nil (d : Directory) : dirAt d [] = some d := rfl

theorem dirAt_cons (d : Directory) (l : Label) (q : List Label) :
    dirAt d (l :: q) = (d.subDirectory l).bind fun x => dirAt x q := by
  unfold dirAt
  rw [List.foldl_cons,
    show ((some d).bind fun dir => dir.subDirectory l) = d.subDirectory l
      from rfl]
  cases hsub : d.subDirectory l with
  | none => rw [foldWalk_none]; rfl
  | some x => rfl

theorem grows_dirAt {d d' D : Directory} {q : List Label} (hg : Grows d d')
    (hD : dirAt d q = some D) : ∃ D', dirAt d' q = some D' ∧ Grows D D' := by
  induction q generalizing d d' with
  | nil =>
    rw [dirAt_nil] at hD
    injection hD with hD
    subst hD
    exact ⟨d', rfl, hg⟩
  | cons l q ih =>
    rw [dirAt_cons] at hD ⊢
    cases hsub : d.subDirectory l with
    | none => rw [hsub] at hD; exact Option.noConfusion hD
    | some x =>
      rw [hsub] at hD
      obtain ⟨x', hx', hgx⟩ := grows_subDirectory hg hsub
      rw [hx']
      exact ih hgx hD

theorem findDirectory_eq (d : Directory) (p : Path) :
    d.findDirectory p = if p.hd = d.label then dirAt d p.tl else none := rfl

theorem grows_findDirectory {d d' D : Directory} {p : Path} (hg : Grows d d')
    (hD : d.findDirectory p = some D) :
    ∃ D', d'.findDirectory p = some D' ∧ Grows D D' := by
  rw [findDirectory_eq] at hD ⊢
  rw [grows_label hg]
  by_cases hhd : p.hd = d.label
  · rw [if_pos hhd] at hD ⊢
    exact grows_dirAt hg hD
  · rw [if_neg hhd] at hD
    exact Option.noConfusion hD

theorem grows_findFile {d d' : Directory} {p : Path} {f : File}
    (hg : Grows d d') (hf : d.findFile p = some f) :
    d'.findFile p = some f := by
  cases hs : p.splitLast with
  | mk pre name =>
    cases pre with
    | nil =>
      rw [findFile_eq_nil d p name hs] at hf
      rw [findFile_eq_nil d' p name hs]
      exact grows_fileInDirectory hg hf
    | cons l ls =>
      rw [findFile_eq_cons d p l name ls hs] at hf
      rw [findFile_eq_cons d' p l name ls hs]
      cases hdir : d.findDirectory ⟨l, ls⟩ with
      | none => rw [hdir] at hf; exact Option.noConfusion hf
      | some D =>
        rw [hdir] at hf
        obtain ⟨D', hD', hgD⟩ := grows_findDirectory hg hdir
        rw [hD']
        show D'.fileInDirectory name = some f
        exact grows_fileInDirectory hgD hf

end Surf

namespace Surf

theorem findSome?_append_none_left {α β : Type} (g : α → Option β)
    {as : List α} (bs : List α) (h : as.findSome? g = none) :
    (as ++ bs).findSome? g = bs.findSome? g := by
  induction as with
  | nil => rfl
  | cons a rest ih =>
    rw [List.findSome?_cons] at h
    rw [List.cons_append, List.findSome?_cons]
    cases hg : g a with
    | some x => rw [hg] at h; exact Option.noConfusion h
    | none => rw [hg] at h; exact ih h

theorem pushEntry_label (t : Directory) (e : DirectoryContents) :
    (t.pushEntry e).label = t.label := by
  cases t; rfl

theorem pushEntry_entriesList (t : Directory) (e : DirectoryContents) :
    (t.pushEntry e).entriesList = t.entriesList ++ [e] := by
  cases t; rfl

theorem subDirectory_pushEntry_self {t o : Directory}
    (h : t.subDirectory o.label = none) :
    (t.pushEntry (.subDirectory o)).subDirectory o.label = some o := by
  unfold Directory.subDirectory at h ⊢
  rw [pushEntry_entriesList, findSome?_append_none_left _ _ h]
  simp [List.findSome?, subView]

theorem subDirectory_pushEntry_of_some {t : Directory}
    {e : DirectoryContents} {l : Label} {s : Directory}
    (h : t.subDirectory l = some s) :
    (t.pushEntry e).subDirectory l = some s := by
  unfold Directory.subDirectory at h ⊢
  rw [pushEntry_entriesList]
  exact findSome?_append_some _ _ h

theorem tail_concat_decomp {p : Path} (h : p.tl ≠ []) :
    ∃ ys lastl, p.tl = ys ++ [lastl] := by
  rcases List.eq_nil_or_concat p.tl with h1 | ⟨ys, a, hc⟩
  · exact absurd h1 h
  · exact ⟨ys, a, by rw [hc, List.concat_eq_append]⟩

theorem split_concat (a b : Label) (ls : List Label) :
    Path.split ⟨a, ls ++ [b]⟩ = (a, ls, b) := by
  cases ls with
  | nil => rfl
  | cons x xs =>
    unfold Path.split
    show (a, (x :: (xs ++ [b])).dropLast,
      (x :: (xs ++ [b])).getLast (by simp)) = (a, x :: xs, b)
    refine Prod.ext rfl (Prod.ext ?_ ?_)
    · show (x :: (xs ++ [b])).dropLast = x :: xs
      exact @List.dropLast_concat Label (x :: xs) b
    · show (x :: (xs ++ [b])).getLast (by simp) = b
      simp

theorem splitLast_concat (a b : Label) (ls : List Label) :
    Path.splitLast ⟨a, ls ++ [b]⟩ =
      if a = b ∧ ls = [] then ([], b) else (a :: ls, b) := by
  unfold Path.splitLast
  rw [split_concat]

theorem splitLast_concat_ne (a b : Label) (ls : List Label)
    (h : ¬(a = b ∧ ls = [])) :
    Path.splitLast ⟨a, ls ++ [b]⟩ = (a :: ls, b) := by
  rw [splitLast_concat, if_neg h]

/-- C8 counterexample: combining two directories with different root labels
appends `other` as one child rather than unioning the entries, and a file of
`other` is no longer findable at its original path in the combined tree. -/
theorem c8_counterexample :
    (combine (Directory.mk "a" (.file ⟨"x", []⟩) [])
      (Directory.mk "b" (.file ⟨"y", []⟩) [])).listDirectory =
      [("x", SystemType.file), ("b", SystemType.directory)] ∧
    (Directory.mk "b" (.file ⟨"y", []⟩) []).findFile ⟨"b", ["y"]⟩ =
      some ⟨"y", []⟩ ∧
    (combine (Directory.mk "a" (.file ⟨"x", []⟩) [])
      (Directory.mk "b" (.file ⟨"y", []⟩) [])).findFile ⟨"b", ["y"]⟩ =
      none := by
  refine ⟨?_, rfl, ?_⟩ <;>
    simp [Surf.combine, Directory.subDirectory, Directory.entriesList,
      Directory.label, subView, List.findSome?, Directory.pushEntry,
      Directory.listDirectory, listingOf, Directory.findFile, Path.splitLast,
      Path.split, Directory.findDirectory, Directory.fileInDirectory,
      fileView]

/-- C8 (amended): when the target has no immediate sub-directory carrying
`other`'s label, combine appends `other` itself as one new child (not the
union of both entry lists); everything findable in the target stays findable
at its path, and everything findable in `other` at a path starting with
`other`'s label is findable in the combined tree at that path prefixed by
the target's label. -/
theorem c8_combine_disjoint (t o : Directory) (_hlab : t.label ≠ o.label)
    (hfresh : t.subDirectory o.label = none) :
    combine t o = t.pushEntry (.subDirectory o) ∧
    (∀ (p : Path) (f : File), t.findFile p = some f →
      (combine t o).findFile p = some f) ∧
    (∀ p : Path, (t.findDirectory p).isSome →
      ((combine t o).findDirectory p).isSome) ∧
    (∀ (p : Path) (f : File), p.hd = o.label → p.tl ≠ [] →
      o.findFile p = some f →
      (combine t o).findFile ⟨t.label, p.hd :: p.tl⟩ = some f) ∧
    (∀ p : Path, p.hd = o.label → (o.findDirectory p).isSome →
      ((combine t o).findDirectory ⟨t.label, p.hd :: p.tl⟩).isSome) := by
  have hcomb : combine t o = t.pushEntry (.subDirectory o) := combine_push hfresh
  refine ⟨hcomb, fun p f hf => grows_findFile (combine_grows t o) hf,
    fun p hp => ?_, fun p f hhd htl hf => ?_, fun p hhd hp => ?_⟩
  · rw [Option.isSome_iff_exists] at hp
    obtain ⟨D, hD⟩ := hp
    obtain ⟨D', hD', _⟩ := grows_findDirectory (combine_grows t o) hD
    rw [hD']
    rfl
  · obtain ⟨ys, lastl, hys⟩ := tail_concat_decomp htl
    have hq : (⟨t.label, p.hd :: p.tl⟩ : Path).splitLast =
        (t.label :: p.hd :: ys, lastl) := by
      rw [show (⟨t.label, p.hd :: p.tl⟩ : Path) =
        ⟨t.label, (p.hd :: ys) ++ [lastl]⟩ from by rw [hys, List.cons_append]]
      exact splitLast_concat_ne _ _ _ (by simp)
    rw [findFile_eq_cons _ _ _ _ _ hq]
    have hpeq : p = ⟨p.hd, ys ++ [lastl]⟩ := by
      cases p; simp at hys ⊢; exact hys
    by_cases hcol : p.hd = lastl ∧ ys = []
    · -- the collapsing split: the file is looked up directly in o
      have hsplit : p.splitLast = ([], lastl) := by
        rw [hpeq, splitLast_concat, if_pos hcol]
      rw [findFile_eq_nil _ _ _ hsplit] at hf
      have hdir : (combine t o).findDirectory ⟨t.label, p.hd :: ys⟩ = some o := by
        rw [findDirectory_eq]
        rw [hcomb, pushEntry_label]
        rw [if_pos rfl]
        rw [hcol.2, dirAt_cons, hhd,
          subDirectory_pushEntry_self hfresh]
        rfl
      rw [hcol.2] at hdir ⊢
      rw [hdir]
      exact hf
    · have hsplit : p.splitLast = (p.hd :: ys, lastl) := by
        rw [hpeq, splitLast_concat, if_neg hcol]
      rw [findFile_eq_cons _ _ _ _ _ hsplit] at hf
      cases hdir : o.findDirectory ⟨p.hd, ys⟩ with
      | none => rw [hdir] at hf; exact Option.noConfusion hf
      | some D =>
        rw [hdir] at hf
        rw [findDirectory_eq] at hdir
        rw [hhd, if_pos rfl] at hdir
        have hdir2 : (combine t o).findDirectory ⟨t.label, p.hd :: ys⟩ =
            some D := by
          rw [findDirectory_eq, hcomb, pushEntry_label, if_pos rfl,
            dirAt_cons, hhd, subDirectory_pushEntry_self hfresh]
          exact hdir
        rw [hdir2]
        exact hf
  · rw [Option.isSome_iff_exists] at hp
    obtain ⟨D, hD⟩ := hp
    rw [findDirectory_eq, hhd, if_pos rfl] at hD
    rw [findDirectory_eq, hcomb, pushEntry_label, if_pos rfl, dirAt_cons,
      hhd, subDirectory_pushEntry_self hfresh]
    rw [show ((some o).bind fun x => dirAt x p.tl) = dirAt o p.tl from rfl,
      hD]
    rfl

/-- C8 witness: the concrete disjoint combine, with the file of `other`
findable at the root-prefixed path. -/
theorem c8_witness :
    (Directory.mk "a" (.file ⟨"x", []⟩) []).label ≠
      (Directory.mk "b" (.file ⟨"y", []⟩) []).label ∧
    (combine (Directory.mk "a" (.file ⟨"x", []⟩) [])
      (Directory.mk "b" (.file ⟨"y", []⟩) [])).findFile
        ⟨"a", ["b", "y"]⟩ = some ⟨"y", []⟩ :=
  ⟨by decide,
    (c8_combine_disjoint (Directory.mk "a" (.file ⟨"x", []⟩) [])
      (Directory.mk "b" (.file ⟨"y", []⟩) []) (by decide) rfl).2.2.2.1
      ⟨"b", ["y"]⟩ ⟨"y", []⟩ rfl (by decide) rfl⟩

end Surf

namespace Surf

theorem findSome?_subView_label {es : List DirectoryContents} {l : Label}
    {S : Directory} (h : es.findSome? (subView l) = some S) : S.label = l := by
  induction es with
  | nil => simp [List.findSome?] at h
  | cons e rest ih =>
    rw [List.findSome?_cons] at h
    cases hsv : subView l e with
    | some s0 =>
      rw [hsv] at h
      injection h with h0
      subst h0
      cases e with
      | subDirectory d0 =>
        by_cases hd0 : d0.label = l
        · simp only [subView, hd0, if_true, Option.some.injEq] at hsv
          rw [← hsv, hd0]
        · simp [subView, hd0] at hsv
      | file f => simp [subView] at hsv
      | repo => simp [subView] at hsv
    | none =>
      rw [hsv] at h
      exact ih h

theorem replaceSub_findSome? {es : List DirectoryContents} {l : Label}
    {S : Directory} (x : Label) (nd : Directory)
    (hfound : es.findSome? (subView l) = some S) (hlab : nd.label = l) :
    (replaceSub es l nd).findSome? (subView x) =
      if x = l then some nd else es.findSome? (subView x) := by
  induction es with
  | nil => simp [List.findSome?] at hfound
  | cons e rest ih =>
    rw [List.findSome?_cons] at hfound
    cases e with
    | subDirectory d0 =>
      by_cases hd0 : d0.label = l
      · rw [replaceSub_sub_eq rest nd hd0]
        rw [List.findSome?_cons]
        by_cases hx : x = l
        · simp [subView, hlab, hx]
        · have h1 : subView x (.subDirectory nd) = none := by
            have hne : ¬nd.label = x := by
              rw [hlab]
              intro hc
              exact hx hc.symm
            simp [subView, hne]
          rw [h1, List.findSome?_cons]
          have h2 : subView x (.subDirectory d0) = none := by
            have hne : ¬d0.label = x := by
              rw [hd0]
              intro hc
              exact hx hc.symm
            simp [subView, hne]
          rw [h2, if_neg hx]
      · have h0 : subView l (.subDirectory d0) = none := by
          simp [subView, hd0]
        rw [h0] at hfound
        rw [replaceSub_sub_ne rest nd hd0]
        rw [List.findSome?_cons, List.findSome?_cons]
        cases hsv : subView x (.subDirectory d0) with
        | some s0 =>
          have hx : ¬x = l := by
            intro hx
            subst hx
            rw [h0] at hsv
            exact Option.noConfusion hsv
          rw [if_neg hx]
        | none => rw [ih hfound]
    | file f =>
      rw [show subView l (.file f) = none from rfl] at hfound
      rw [replaceSub_file, List.findSome?_cons, List.findSome?_cons,
        show subView x (.file f) = none from rfl, ih hfound]
    | repo =>
      rw [show subView l DirectoryContents.repo = none from rfl] at hfound
      rw [replaceSub_repo, List.findSome?_cons, List.findSome?_cons,
        show subView x DirectoryContents.repo = none from rfl, ih hfound]

theorem replaceSub_labels {es : List DirectoryContents} {l : Label}
    {S : Directory} (nd : Directory)
    (hfound : es.findSome? (subView l) = some S) (hlab : nd.label = l) :
    (replaceSub es l nd).filterMap labelOf = es.filterMap labelOf := by
  induction es with
  | nil => simp [List.findSome?] at hfound
  | cons e rest ih =>
    rw [List.findSome?_cons] at hfound
    cases e with
    | subDirectory d0 =>
      by_cases hd0 : d0.label = l
      · rw [replaceSub_sub_eq rest nd hd0]
        simp [labelOf, hlab, hd0]
      · have h0 : subView l (.subDirectory d0) = none := by
          simp [subView, hd0]
        rw [h0] at hfound
        rw [replaceSub_sub_ne rest nd hd0]
        simp [labelOf, ih hfound]
    | file f =>
      rw [show subView l (.file f) = none from rfl] at hfound
      rw [replaceSub_file]
      simp [labelOf, ih hfound]
    | repo =>
      rw [show subView l DirectoryContents.repo = none from rfl] at hfound
      rw [replaceSub_repo]
      simp [labelOf, ih hfound]

theorem combineInto_single (S X : Directory) :
    combineInto S [.subDirectory X] = combine S X := by
  rw [combineInto, combineInto]

theorem chainD_label (l : Label) (ls : List Label) (d : Directory) :
    (chainD (l :: ls) d).label = l := rfl

theorem chainD_entries (l : Label) (ls : List Label) (d : Directory) :
    (chainD (l :: ls) d).entriesList = [.subDirectory (chainD ls d)] := rfl

/-- In the merge case, `combine` rewires exactly the first matching
sub-directory and leaves every other lookup and all child labels at this
level unchanged. -/
theorem combine_merge_lookup {R S other : Directory}
    (hS : R.subDirectory other.label = some S) :
    (combine R other).label = R.label ∧
    (∀ x, (combine R other).subDirectory x =
      if x = other.label then some (combineInto S other.entriesList)
      else R.subDirectory x) ∧
    (combine R other).childLabels = R.childLabels := by
  obtain ⟨hlab, hent⟩ := combine_merge_entries hS
  have hnd : (combineInto S other.entriesList).label = S.label :=
    grows_label (combineInto_grows S other.entriesList)
  have hSlab : S.label = other.label :=
    findSome?_subView_label (by unfold Directory.subDirectory at hS; exact hS)
  refine ⟨hlab, fun x => ?_, ?_⟩
  · unfold Directory.subDirectory
    rw [hent, replaceSub_findSome? x _ hS (hnd.trans hSlab)]
  · unfold Directory.childLabels
    rw [hent, replaceSub_labels _ hS (hnd.trans hSlab)]

/-- C3: combining a tree that contains the chain of branch labels `ls`
ending in directory `E`, with a chain carrying the same labels and a leaf
directory `dB` fresh in `E`, merges structurally: the combined tree still
walks `ls` to a single merged directory, now `E` with `dB` appended, and the
child labels at every proper prefix of the chain are unchanged (no branch is
duplicated). -/
theorem c3_combine_shared_chain (ls : List Label) (R E dB : Directory)
    (hwalk : dirAt R ls = some E)
    (hfresh : E.subDirectory dB.label = none) :
    dirAt (combine R (chainD ls dB)) ls =
      some (E.pushEntry (.subDirectory dB)) ∧
    ∀ i : Nat, i < ls.length →
      (dirAt (combine R (chainD ls dB)) (ls.take i)).map
          Directory.childLabels =
        (dirAt R (ls.take i)).map Directory.childLabels := by
  induction ls generalizing R with
  | nil =>
    rw [dirAt_nil] at hwalk
    injection hwalk with hwalk
    subst hwalk
    rw [show chainD [] dB = dB from rfl, combine_push hfresh]
    exact ⟨dirAt_nil _, fun i hi => absurd hi (by simp)⟩
  | cons l ls' ih =>
    rw [dirAt_cons] at hwalk
    cases hS : R.subDirectory l with
    | none => rw [hS] at hwalk; exact Option.noConfusion hwalk
    | some S =>
      rw [hS] at hwalk
      have hS' : R.subDirectory (chainD (l :: ls') dB).label = some S := by
        rw [chainD_label]; exact hS
      obtain ⟨hclab, hcsub, hchilds⟩ := combine_merge_lookup hS'
      have hinto : combineInto S (chainD (l :: ls') dB).entriesList =
          combine S (chainD ls' dB) := by
        rw [chainD_entries, combineInto_single]
      obtain ⟨iha, ihb⟩ := ih S hwalk
      constructor
      · rw [dirAt_cons, hcsub l, if_pos (chainD_label l ls' dB).symm, hinto]
        exact iha
      · intro i hi
        cases i with
        | zero =>
          rw [List.take_zero, dirAt_nil, dirAt_nil]
          simp [hchilds]
        | succ j =>
          rw [List.take_succ_cons, dirAt_cons, dirAt_cons,
            hcsub l, if_pos (chainD_label l ls' dB).symm, hinto, hS]
          exact ihb j (by simpa using hi)

end Surf

namespace Surf

/-- C3 witness: tree A foo/bar/baz/quux.rs combined with tree B
foo/bar/quux/hallo.rs shares the foo and bar branches; bar ends up with the
two children baz and quux, and the labels at the root and at foo are
unchanged. -/
theorem c3_witness :
    dirAt
      (Directory.mk "~" (.subDirectory (.mk ".test" .repo []))
        [.subDirectory (Directory.mkdir "foo" (Directory.mkdir "bar"
          (.mk "baz" (.file ⟨"quux.rs", []⟩) [])))])
      ["foo", "bar"] =
      some (.mk "bar"
        (.subDirectory (.mk "baz" (.file ⟨"quux.rs", []⟩) [])) []) ∧
    (Directory.mk "bar"
      (.subDirectory (.mk "baz" (.file ⟨"quux.rs", []⟩) []))
      []).subDirectory "quux" = none ∧
    dirAt
      (combine
        (Directory.mk "~" (.subDirectory (.mk ".test" .repo []))
          [.subDirectory (Directory.mkdir "foo" (Directory.mkdir "bar"
            (.mk "baz" (.file ⟨"quux.rs", []⟩) [])))])
        (chainD ["foo", "bar"] (.mk "quux" (.file ⟨"hallo.rs", []⟩) [])))
      ["foo", "bar"] =
      some ((Directory.mk "bar"
        (.subDirectory (.mk "baz" (.file ⟨"quux.rs", []⟩) []))
        []).pushEntry
          (.subDirectory (.mk "quux" (.file ⟨"hallo.rs", []⟩) []))) ∧
    (dirAt
      (combine
        (Directory.mk "~" (.subDirectory (.mk ".test" .repo []))
          [.subDirectory (Directory.mkdir "foo" (Directory.mkdir "bar"
            (.mk "baz" (.file ⟨"quux.rs", []⟩) [])))])
        (chainD ["foo", "bar"] (.mk "quux" (.file ⟨"hallo.rs", []⟩) [])))
      (["foo", "bar"].take 1)).map Directory.childLabels =
      (dirAt
        (Directory.mk "~" (.subDirectory (.mk ".test" .repo []))
          [.subDirectory (Directory.mkdir "foo" (Directory.mkdir "bar"
            (.mk "baz" (.file ⟨"quux.rs", []⟩) [])))])
        (["foo", "bar"].take 1)).map Directory.childLabels :=
  ⟨rfl, rfl,
    (c3_combine_shared_chain ["foo", "bar"]
      (Directory.mk "~" (.subDirectory (.mk ".test" .repo []))
        [.subDirectory (Directory.mkdir "foo" (Directory.mkdir "bar"
          (.mk "baz" (.file ⟨"quux.rs", []⟩) [])))])
      (.mk "bar" (.subDirectory (.mk "baz" (.file ⟨"quux.rs", []⟩) [])) [])
      (.mk "quux" (.file ⟨"hallo.rs", []⟩) []) rfl rfl).1,
    (c3_combine_shared_chain ["foo", "bar"]
      (Directory.mk "~" (.subDirectory (.mk ".test" .repo []))
        [.subDirectory (Directory.mkdir "foo" (Directory.mkdir "bar"
          (.mk "baz" (.file ⟨"quux.rs", []⟩) [])))])
      (.mk "bar" (.subDirectory (.mk "baz" (.file ⟨"quux.rs", []⟩) [])) [])
      (.mk "quux" (.file ⟨"hallo.rs", []⟩) []) rfl rfl).2 1 (by decide)⟩

end Surf


namespace SurfT

theorem insertT_ne_nil (l : Surf.Label) (ls : List Surf.Label) (v : File2)
    (f : Forest) : insertT l ls v f ≠ [] := by
  cases ls with
  | nil =>
    rw [insertT, putNode]
    by_cases h : hasNode f l = true
    · rw [if_pos h]
      cases f with
      | nil => simp [hasNode] at h
      | cons t rest =>
        cases t with
        | node k w =>
          rw [replaceNodeF]
          by_cases hk : k = l
          · rw [if_pos hk]; simp
          · rw [if_neg hk]; simp
        | branch k cs => rw [replaceNodeF]; simp
    · rw [if_neg h]; simp
  | cons l' ls' =>
    rw [insertT]
    cases hsp : splitAtBranch f l with
    | some x => simp
    | none => simp

theorem sizeT_append (xs ys : Forest) :
    sizeT (xs ++ ys) = sizeT xs + sizeT ys := by
  induction xs with
  | nil => rw [List.nil_append, sizeT]; omega
  | cons t rest ih =>
    cases t with
    | node k v => rw [List.cons_append, sizeT, sizeT, ih]; omega
    | branch k cs => rw [List.cons_append, sizeT, sizeT, ih]; omega

theorem splitAtBranch_decomp {f : Forest} {l : Surf.Label}
    {a cs b : List SubTree} (h : splitAtBranch f l = some (a, cs, b)) :
    f = a ++ [.branch l cs] ++ b ∧ findBr a l = none := by
  induction f generalizing a cs b with
  | nil => simp [splitAtBranch] at h
  | cons t rest ih =>
    cases t with
    | node k v =>
      rw [splitAtBranch] at h
      cases hr : splitAtBranch rest l with
      | none => rw [hr] at h; exact Option.noConfusion h
      | some x =>
        obtain ⟨x1, x2, x3⟩ := x
        rw [hr] at h
        injection h with h
        injection h with h1 h23
        injection h23 with h2 h3
        subst h1
        subst h2
        subst h3
        obtain ⟨hdec, hnone⟩ := ih hr
        constructor
        · simp only [List.cons_append, List.append_assoc] at hdec ⊢
          rw [← hdec]
        · rw [findBr]
          exact hnone
    | branch k cs0 =>
      rw [splitAtBranch] at h
      by_cases hk : k = l
      · rw [if_pos hk] at h
        injection h with h
        injection h with h1 h23
        injection h23 with h2 h3
        subst h1
        subst h2
        subst h3
        subst hk
        exact ⟨by simp, rfl⟩
      · rw [if_neg hk] at h
        cases hr : splitAtBranch rest l with
        | none => rw [hr] at h; exact Option.noConfusion h
        | some x =>
          obtain ⟨x1, x2, x3⟩ := x
          rw [hr] at h
          injection h with h
          injection h with h1 h23
          injection h23 with h2 h3
          subst h1
          subst h2
          subst h3
          obtain ⟨hdec, hnone⟩ := ih hr
          constructor
          · simp only [List.cons_append, List.append_assoc] at hdec ⊢
            rw [← hdec]
          · rw [findBr, if_neg hk]
            exact hnone

theorem splitAtBranch_none {f : Forest} {l : Surf.Label}
    (h : splitAtBranch f l = none) : findBr f l = none := by
  induction f with
  | nil => rfl
  | cons t rest ih =>
    cases t with
    | node k v =>
      rw [splitAtBranch] at h
      cases hr : splitAtBranch rest l with
      | some x => rw [hr] at h; exact Option.noConfusion h
      | none =>
        rw [findBr]
        exact ih hr
    | branch k cs0 =>
      rw [splitAtBranch] at h
      by_cases hk : k = l
      · rw [if_pos hk] at h; exact Option.noConfusion h
      · rw [if_neg hk] at h
        cases hr : splitAtBranch rest l with
        | some x => rw [hr] at h; exact Option.noConfusion h
        | none =>
          rw [findBr, if_neg hk]
          exact ih hr

end SurfT

namespace SurfT

theorem abn_append (xs ys : Forest) :
    abn (xs ++ ys) = (abn xs && abn ys) := by
  induction xs with
  | nil => rw [List.nil_append, abn, Bool.true_and]
  | cons t rest ih =>
    cases t with
    | node k v => rw [List.cons_append, abn, abn, ih]
    | branch k cs =>
      rw [List.cons_append, abn, abn, ih]
      simp [Bool.and_assoc]

theorem abn_replaceNodeF {f : Forest} (l : Surf.Label) (v : File2)
    (h : abn f = true) : abn (replaceNodeF f l v) = true := by
  induction f with
  | nil => rw [replaceNodeF, abn]
  | cons t rest ih =>
    cases t with
    | node k w =>
      rw [abn] at h
      rw [replaceNodeF]
      by_cases hk : k = l
      · rw [if_pos hk, abn]; exact h
      · rw [if_neg hk, abn]; exact ih h
    | branch k cs =>
      rw [abn] at h
      rw [replaceNodeF, abn]
      simp only [Bool.and_eq_true] at h ⊢
      exact ⟨h.1, ih h.2⟩

theorem insertT_nil_eq (l : Surf.Label) (v : File2) (f : Forest) :
    insertT l [] v f = putNode f l v := rfl

theorem insertT_cons_some {f : Forest} {l : Surf.Label} {a cs b : List SubTree}
    (l' : Surf.Label) (ls' : List Surf.Label) (v : File2)
    (hsp : splitAtBranch f l = some (a, cs, b)) :
    insertT l (l' :: ls') v f =
      a ++ [.branch l (insertT l' ls' v cs)] ++ b := by
  rw [insertT, hsp]

theorem insertT_cons_none {f : Forest} {l : Surf.Label}
    (l' : Surf.Label) (ls' : List Surf.Label) (v : File2)
    (hsp : splitAtBranch f l = none) :
    insertT l (l' :: ls') v f = f ++ [.branch l (insertT l' ls' v [])] := by
  rw [insertT, hsp]

theorem isEmpty_false_of_ne_nil {α : Type} {xs : List α} (h : xs ≠ []) :
    xs.isEmpty = false := by
  cases xs with
  | nil => exact absurd rfl h
  | cons x xs => rfl

theorem abn_insertT {f : Forest} {l : Surf.Label} {ls : List Surf.Label}
    (v : File2) (h : abn f = true) : abn (insertT l ls v f) = true := by
  induction ls generalizing l f with
  | nil =>
    rw [insertT_nil_eq, putNode]
    by_cases hn : hasNode f l = true
    · rw [if_pos hn]
      exact abn_replaceNodeF l v h
    · rw [if_neg hn, abn_append, h, Bool.true_and, abn, abn]
  | cons l' ls' ih =>
    cases hsp : splitAtBranch f l with
    | some x =>
      obtain ⟨a, cs, b⟩ := x
      rw [insertT_cons_some l' ls' v hsp]
      obtain ⟨hdec, _⟩ := splitAtBranch_decomp hsp
      subst hdec
      rw [abn_append, abn_append] at h
      simp only [Bool.and_eq_true] at h
      obtain ⟨⟨ha, hbr⟩, hb⟩ := h
      rw [abn] at hbr
      simp only [Bool.and_eq_true] at hbr
      obtain ⟨⟨hcs0, hcs⟩, _⟩ := hbr
      rw [abn_append, abn_append, ha, hb, abn,
        isEmpty_false_of_ne_nil (insertT_ne_nil l' ls' v cs), ih hcs,
        show abn ([] : Forest) = true from by rw [abn]]
      rfl
    | none =>
      rw [insertT_cons_none l' ls' v hsp, abn_append, h, Bool.true_and, abn,
        isEmpty_false_of_ne_nil (insertT_ne_nil l' ls' v []),
        ih (show abn ([] : Forest) = true by rw [abn]),
        show abn ([] : Forest) = true from by rw [abn]]
      rfl

theorem findBr_abn {f : Forest} {l : Surf.Label} {cs : List SubTree}
    (h : abn f = true) (hf : findBr f l = some cs) :
    cs ≠ [] ∧ abn cs = true := by
  induction f with
  | nil => exact Option.noConfusion hf
  | cons t rest ih =>
    cases t with
    | node k v =>
      rw [findBr] at hf
      rw [abn] at h
      exact ih h hf
    | branch k cs0 =>
      rw [findBr] at hf
      rw [abn] at h
      simp only [Bool.and_eq_true] at h
      obtain ⟨⟨h0, h1⟩, h2⟩ := h
      by_cases hk : k = l
      · rw [if_pos hk] at hf
        injection hf with hf
        subst hf
        refine ⟨?_, h1⟩
        intro hnil
        subst hnil
        simp at h0
      · rw [if_neg hk] at hf
        exact ih h2 hf

theorem findBranchT_abn {f : Forest} {l : Surf.Label} {ls : List Surf.Label}
    {cs : List SubTree} (h : abn f = true)
    (hf : findBranchT l ls f = some cs) : cs ≠ [] ∧ abn cs = true := by
  induction ls generalizing f l with
  | nil => exact findBr_abn h hf
  | cons l' ls' ih =>
    rw [findBranchT] at hf
    cases hbr : findBr f l with
    | none => rw [hbr] at hf; exact Option.noConfusion hf
    | some cs0 =>
      rw [hbr] at hf
      obtain ⟨_, habn0⟩ := findBr_abn h hbr
      exact ih habn0 hf

theorem branch_mem_abn {f : Forest} {k : Surf.Label} {cs : List SubTree}
    (h : abn f = true) (hmem : SubTree.branch k cs ∈ f) :
    cs ≠ [] ∧ abn cs = true := by
  induction f with
  | nil => simp at hmem
  | cons t rest ih =>
    rw [List.mem_cons] at hmem
    cases hmem with
    | inl heq =>
      subst heq
      rw [abn] at h
      simp only [Bool.and_eq_true] at h
      obtain ⟨⟨h0, h1⟩, _⟩ := h
      refine ⟨?_, h1⟩
      intro hnil
      subst hnil
      simp at h0
    | inr hmem =>
      cases t with
      | node k' v => rw [abn] at h; exact ih h hmem
      | branch k' cs' =>
        rw [abn] at h
        simp only [Bool.and_eq_true] at h
        exact ih h.2 hmem

end SurfT

namespace SurfT

theorem fromEntry_nil (d : Directory2) (path : Surf.Path) :
    fromEntry d path [] = d := rfl

theorem fromEntry_cons (d : Directory2) (path : Surf.Path)
    (x : Surf.Label × File2) (xs : List (Surf.Label × File2)) :
    fromEntry d path (x :: xs) =
      fromEntry
        (if path.isRoot then d.insertFile ⟨x.1, []⟩ x.2
         else d.insertFile (path.push x.1) x.2) path xs := rfl

theorem insertFile_subDirs (d : Directory2) (p : Surf.Path) (v : File2) :
    (d.insertFile p v).subDirectories = insertT p.hd p.tl v d.subDirectories :=
  rfl

theorem fromEntry_abn {d : Directory2} {path : Surf.Path}
    {nf : List (Surf.Label × File2)} (h : abn d.subDirectories = true) :
    abn (fromEntry d path nf).subDirectories = true := by
  induction nf generalizing d with
  | nil => exact h
  | cons x xs ih =>
    rw [fromEntry_cons]
    apply ih
    by_cases hr : path.isRoot
    · rw [if_pos hr, insertFile_subDirs]
      exact abn_insertT _ h
    · rw [if_neg hr, insertFile_subDirs]
      exact abn_insertT _ h

theorem fromEntry_pres_ne_nil {d : Directory2} {path : Surf.Path}
    {nf : List (Surf.Label × File2)} (h : d.subDirectories ≠ []) :
    (fromEntry d path nf).subDirectories ≠ [] := by
  induction nf generalizing d with
  | nil => exact h
  | cons x xs ih =>
    rw [fromEntry_cons]
    apply ih
    by_cases hr : path.isRoot
    · rw [if_pos hr, insertFile_subDirs]
      exact insertT_ne_nil _ _ _ _
    · rw [if_neg hr, insertFile_subDirs]
      exact insertT_ne_nil _ _ _ _

theorem fromEntry_ne_nil (d : Directory2) (path : Surf.Path)
    (x : Surf.Label × File2) (xs : List (Surf.Label × File2)) :
    (fromEntry d path (x :: xs)).subDirectories ≠ [] := by
  rw [fromEntry_cons]
  apply fromEntry_pres_ne_nil
  by_cases hr : path.isRoot
  · rw [if_pos hr, insertFile_subDirs]
    exact insertT_ne_nil _ _ _ _
  · rw [if_neg hr, insertFile_subDirs]
    exact insertT_ne_nil _ _ _ _

theorem fold_entries_abn (m : List (Surf.Path × NamedFiles))
    (d : Directory2) (h : abn d.subDirectories = true) :
    abn ((m.foldl (fun acc e => fromEntry acc e.1 e.2.toList)
      d)).subDirectories = true := by
  induction m generalizing d with
  | nil => exact h
  | cons e m' ih =>
    rw [List.foldl_cons]
    exact ih _ (fromEntry_abn h)

theorem fold_entries_ne_nil (m : List (Surf.Path × NamedFiles))
    (d : Directory2) (h : d.subDirectories ≠ []) :
    ((m.foldl (fun acc e => fromEntry acc e.1 e.2.toList)
      d)).subDirectories ≠ [] := by
  induction m generalizing d with
  | nil => exact h
  | cons e m' ih =>
    rw [List.foldl_cons]
    exact ih _ (fromEntry_pres_ne_nil h)

theorem fromHM_abn (m : List (Surf.Path × NamedFiles)) :
    abn (Directory2.fromHashMap m).subDirectories = true :=
  fold_entries_abn m Directory2.rootD
    (by rw [show Directory2.rootD.subDirectories = [] from rfl, abn])

theorem fromHM_ne_nil {m : List (Surf.Path × NamedFiles)} (h : m ≠ []) :
    (Directory2.fromHashMap m).subDirectories ≠ [] := by
  cases m with
  | nil => exact absurd rfl h
  | cons e m' =>
    rw [Directory2.fromHashMap, List.foldl_cons]
    exact fold_entries_ne_nil m' _
      (fromEntry_ne_nil Directory2.rootD e.1 e.2.1 e.2.2)

theorem listDirectory_ne_nil {d : Directory2} (h : d.subDirectories ≠ []) :
    d.listDirectory ≠ [] := by
  unfold Directory2.listDirectory
  cases hsd : d.subDirectories with
  | nil => exact absurd hsd h
  | cons t rest => simp

theorem iter_dirE_mem {d : Directory2} {c : Directory2}
    (h : DirContents2.dirE c ∈ d.iterList) :
    ∃ k cs, SubTree.branch k cs ∈ d.subDirectories ∧
      c = ⟨.subDir k, cs⟩ := by
  unfold Directory2.iterList at h
  rw [List.mem_map] at h
  obtain ⟨t, ht, heq⟩ := h
  cases t with
  | node k v => exact absurd heq (by simp)
  | branch k cs =>
    refine ⟨k, cs, ht, ?_⟩
    have : DirContents2.dirE (⟨.subDir k, cs⟩ : Directory2) =
        DirContents2.dirE c := heq
    injection this with h2
    exact h2.symm

/-- C4 counterexample: building from the empty mapping yields a root
directory (reachable from itself) that lists zero children. -/
theorem c4_counterexample :
    (Directory2.fromHashMap []).listDirectory = [] := rfl

/-- C4 (amended): for every tree built from a non-empty mapping, every
reachable directory (the root, any find_directory result, any child produced
by iteration) lists at least one child; in the recursive formulation the
entry collection of every directory value is non-empty by construction. -/
theorem c4_nonempty_amended :
    (∀ (m : List (Surf.Path × NamedFiles)) (d : Directory2), m ≠ [] →
      Reach2 (Directory2.fromHashMap m) d → d.listDirectory ≠ []) ∧
    (∀ dm : Surf.Directory, dm.entriesList ≠ []) := by
  constructor
  · intro m d hm hreach
    have hgood : d.subDirectories ≠ [] ∧ abn d.subDirectories = true := by
      induction hreach with
      | refl => exact ⟨fromHM_ne_nil hm, fromHM_abn m⟩
      | find hr hfind ih =>
        rename_i b c p
        unfold Directory2.findDirectory at hfind
        rw [Option.map_eq_some'] at hfind
        obtain ⟨cs, hcs, hc⟩ := hfind
        obtain ⟨hne, habn⟩ := findBranchT_abn ih.2 hcs
        rw [← hc] at *
        exact ⟨hne, habn⟩
      | child hr hmem ih =>
        obtain ⟨k, cs, hbr, hc⟩ := iter_dirE_mem hmem
        obtain ⟨hne, habn⟩ := branch_mem_abn ih.2 hbr
        rw [hc]
        exact ⟨hne, habn⟩
    exact listDirectory_ne_nil hgood.1
  · intro dm
    cases dm
    simp [Surf.Directory.entriesList]

/-- C4 witness: a one-entry mapping built into a tree whose root lists a
child. -/
theorem c4_witness :
    ([(Surf.Path.rootP, (("a", File2.new [1]), []))] :
      List (Surf.Path × NamedFiles)) ≠ [] ∧
    (Directory2.fromHashMap
      [(Surf.Path.rootP, (("a", File2.new [1]), []))]).listDirectory ≠ [] :=
  ⟨by decide,
    c4_nonempty_amended.1 [(Surf.Path.rootP, (("a", File2.new [1]), []))] _
      (by decide) (Reach2.refl _)⟩

end SurfT

namespace SurfT

theorem sizeT_nil : sizeT [] = 0 := by rw [sizeT]

theorem sizeT_node (k : Surf.Label) (v : File2) (rest : Forest) :
    sizeT (.node k v :: rest) = v.size + sizeT rest := by rw [sizeT]

theorem sizeT_branch (k : Surf.Label) (cs : List SubTree) (rest : Forest) :
    sizeT (.branch k cs :: rest) = sizeT cs + sizeT rest := by rw [sizeT]

theorem findNd_append_none {xs : Forest} {a : Surf.Label} (ys : Forest)
    (h : findNd xs a = none) : findNd (xs ++ ys) a = findNd ys a := by
  induction xs with
  | nil => rfl
  | cons t rest ih =>
    cases t with
    | node k v =>
      rw [findNd] at h
      by_cases hk : k = a
      · rw [if_pos hk] at h; exact Option.noConfusion h
      · rw [if_neg hk] at h
        rw [List.cons_append, findNd, if_neg hk]
        exact ih h
    | branch k cs =>
      rw [findNd] at h
      rw [List.cons_append, findNd]
      exact ih h

theorem findNd_replaceNodeF_ne {f : Forest} {a b : Surf.Label} (v : File2)
    (hne : a ≠ b) : findNd (replaceNodeF f b v) a = findNd f a := by
  induction f with
  | nil => rfl
  | cons t rest ih =>
    cases t with
    | node k w =>
      rw [replaceNodeF]
      by_cases hk : k = b
      · rw [if_pos hk, findNd, findNd]
        have : ¬k = a := by rw [hk]; exact fun h => hne h.symm
        rw [if_neg this, if_neg this]
      · rw [if_neg hk, findNd, findNd]
        by_cases hka : k = a
        · rw [if_pos hka, if_pos hka]
        · rw [if_neg hka, if_neg hka]
          exact ih
    | branch k cs =>
      rw [replaceNodeF, findNd, findNd]
      exact ih

theorem hasNode_false_of_findNd_none {f : Forest} {l : Surf.Label}
    (h : findNd f l = none) : hasNode f l = false := by
  induction f with
  | nil => rfl
  | cons t rest ih =>
    cases t with
    | node k v =>
      rw [findNd] at h
      by_cases hk : k = l
      · rw [if_pos hk] at h; exact Option.noConfusion h
      · rw [if_neg hk] at h
        rw [hasNode]
        simp only [Bool.or_eq_false_iff]
        exact ⟨by simp [hk], ih h⟩
    | branch k cs =>
      rw [findNd] at h
      rw [hasNode]
      exact ih h

theorem findNd_putNode_ne {f : Forest} {a b : Surf.Label} (v : File2)
    (hne : a ≠ b) : findNd (putNode f b v) a = findNd f a := by
  rw [putNode]
  by_cases hn : hasNode f b = true
  · rw [if_pos hn]
    exact findNd_replaceNodeF_ne v hne
  · rw [if_neg hn]
    cases hf : findNd f a with
    | some w => exact hf ▸ findNd_append_some_aux hf
    | none =>
      rw [findNd_append_none _ hf, findNd]
      rw [if_neg fun h => hne h.symm]
      rfl
where
  findNd_append_some_aux {xs : Forest} {a : Surf.Label} {w : File2}
      (h : findNd xs a = some w) :
      findNd (xs ++ [SubTree.node b v]) a = some w := by
    induction xs with
    | nil => exact Option.noConfusion h
    | cons t rest ih =>
      cases t with
      | node k u =>
        rw [findNd] at h
        rw [List.cons_append, findNd]
        by_cases hk : k = a
        · rw [if_pos hk] at h ⊢; exact h
        · rw [if_neg hk] at h ⊢; exact ih h
      | branch k cs =>
        rw [findNd] at h
        rw [List.cons_append, findNd]
        exact ih h

theorem findBr_replaceNodeF (f : Forest) (b x : Surf.Label) (v : File2) :
    findBr (replaceNodeF f b v) x = findBr f x := by
  induction f with
  | nil => rfl
  | cons t rest ih =>
    cases t with
    | node k w =>
      rw [replaceNodeF]
      by_cases hk : k = b
      · rw [if_pos hk, findBr, findBr]
      · rw [if_neg hk, findBr, findBr]
        exact ih
    | branch k cs =>
      rw [replaceNodeF, findBr, findBr]
      by_cases hkx : k = x
      · rw [if_pos hkx, if_pos hkx]
      · rw [if_neg hkx, if_neg hkx]
        exact ih

theorem findBr_append_some {xs : Forest} {x : Surf.Label} {c : List SubTree}
    (ys : Forest) (h : findBr xs x = some c) :
    findBr (xs ++ ys) x = some c := by
  induction xs with
  | nil => exact Option.noConfusion h
  | cons t rest ih =>
    cases t with
    | node k v =>
      rw [findBr] at h
      rw [List.cons_append, findBr]
      exact ih h
    | branch k cs =>
      rw [findBr] at h
      rw [List.cons_append, findBr]
      by_cases hk : k = x
      · rw [if_pos hk] at h ⊢; exact h
      · rw [if_neg hk] at h ⊢; exact ih h

theorem findBr_append_none {xs : Forest} {x : Surf.Label} (ys : Forest)
    (h : findBr xs x = none) : findBr (xs ++ ys) x = findBr ys x := by
  induction xs with
  | nil => rfl
  | cons t rest ih =>
    cases t with
    | node k v =>
      rw [findBr] at h
      rw [List.cons_append, findBr]
      exact ih h
    | branch k cs =>
      rw [findBr] at h
      by_cases hk : k = x
      · rw [if_pos hk] at h; exact Option.noConfusion h
      · rw [if_neg hk] at h
        rw [List.cons_append, findBr, if_neg hk]
        exact ih h

theorem findBr_putNode (f : Forest) (b x : Surf.Label) (v : File2) :
    findBr (putNode f b v) x = findBr f x := by
  rw [putNode]
  by_cases hn : hasNode f b = true
  · rw [if_pos hn]
    exact findBr_replaceNodeF f b x v
  · rw [if_neg hn]
    cases hf : findBr f x with
    | some c => exact findBr_append_some _ hf
    | none =>
      rw [findBr_append_none _ hf, findBr, findBr]

theorem findNodeT_nil_forest (a : Surf.Label) (as : List Surf.Label) :
    findNodeT a as [] = none := by
  cases as with
  | nil => rfl
  | cons a' as' => rfl

end SurfT

namespace SurfT

theorem findNd_branch_mid (xs ys : Forest) (k : Surf.Label)
    (c c' : List SubTree) (a : Surf.Label) :
    findNd (xs ++ [.branch k c] ++ ys) a =
      findNd (xs ++ [.branch k c'] ++ ys) a := by
  induction xs with
  | nil => rw [List.nil_append, List.nil_append, List.cons_append,
      List.cons_append, findNd, findNd]
  | cons t rest ih =>
    cases t with
    | node k0 v =>
      rw [List.cons_append, List.cons_append, List.cons_append,
        List.cons_append, findNd, findNd]
      by_cases hk : k0 = a
      · rw [if_pos hk, if_pos hk]
      · rw [if_neg hk, if_neg hk]
        exact ih
    | branch k0 cs0 =>
      rw [List.cons_append, List.cons_append, List.cons_append,
        List.cons_append, findNd, findNd]
      exact ih

theorem findBr_branch_mid_ne (xs ys : Forest) (k : Surf.Label)
    (c c' : List SubTree) {x : Surf.Label} (hx : ¬k = x) :
    findBr (xs ++ [.branch k c] ++ ys) x =
      findBr (xs ++ [.branch k c'] ++ ys) x := by
  induction xs with
  | nil =>
    rw [List.nil_append, List.nil_append, List.cons_append, List.cons_append,
      findBr, findBr, if_neg hx, if_neg hx]
  | cons t rest ih =>
    cases t with
    | node k0 v =>
      rw [List.cons_append, List.cons_append, List.cons_append,
        List.cons_append, findBr, findBr]
      exact ih
    | branch k0 cs0 =>
      rw [List.cons_append, List.cons_append, List.cons_append,
        List.cons_append, findBr, findBr]
      by_cases hk : k0 = x
      · rw [if_pos hk, if_pos hk]
      · rw [if_neg hk, if_neg hk]
        exact ih

theorem findBr_decomp_self {x1 : Forest} (x3 : Forest) {b : Surf.Label}
    (c : List SubTree) (hx1 : findBr x1 b = none) :
    findBr (x1 ++ [.branch b c] ++ x3) b = some c := by
  rw [List.append_assoc, findBr_append_none _ hx1, List.cons_append, findBr,
    if_pos rfl]

theorem sizeT_insertT {f : Forest} {l : Surf.Label} {ls : List Surf.Label}
    (v : File2) (h : findNodeT l ls f = none) :
    sizeT (insertT l ls v f) = sizeT f + v.size := by
  induction ls generalizing l f with
  | nil =>
    have hn : hasNode f l = false := hasNode_false_of_findNd_none h
    rw [insertT_nil_eq, putNode, hn]
    rw [if_neg Bool.false_ne_true, sizeT_append, sizeT_node, sizeT_nil]
    omega
  | cons l' ls' ih =>
    cases hsp : splitAtBranch f l with
    | some x =>
      obtain ⟨x1, cs, x3⟩ := x
      obtain ⟨hf, hx1⟩ := splitAtBranch_decomp hsp
      have hfbr : findBr f l = some cs := by
        rw [hf]
        exact findBr_decomp_self x3 cs hx1
      rw [findNodeT, hfbr] at h
      rw [insertT_cons_some l' ls' v hsp, hf]
      simp only [sizeT_append, List.cons_append, List.nil_append,
        sizeT_branch, sizeT_nil, ih h]
      omega
    | none =>
      rw [insertT_cons_none l' ls' v hsp, sizeT_append, sizeT_branch,
        sizeT_nil, ih (findNodeT_nil_forest l' ls'), sizeT_nil]
      omega

theorem findNodeT_insertT_frame {f : Forest} {a b : Surf.Label}
    {as bs : List Surf.Label} (v : File2) (hne : ¬(a = b ∧ as = bs))
    (h : findNodeT a as f = none) :
    findNodeT a as (insertT b bs v f) = none := by
  induction bs generalizing a b as f with
  | nil =>
    rw [insertT_nil_eq]
    cases as with
    | nil =>
      have hab : a ≠ b := fun hab => hne ⟨hab, rfl⟩
      show findNd (putNode f b v) a = none
      rw [findNd_putNode_ne v hab]
      exact h
    | cons a' as' =>
      rw [findNodeT, findBr_putNode]
      rw [findNodeT] at h
      exact h
  | cons b' bs' ih =>
    cases hsp : splitAtBranch f b with
    | some x =>
      obtain ⟨x1, cs, x3⟩ := x
      obtain ⟨hf, hx1⟩ := splitAtBranch_decomp hsp
      rw [insertT_cons_some b' bs' v hsp]
      cases as with
      | nil =>
        show findNd (x1 ++ [.branch b (insertT b' bs' v cs)] ++ x3) a = none
        rw [findNd_branch_mid x1 x3 b _ cs a, ← hf]
        exact h
      | cons a' as' =>
        rw [findNodeT]
        by_cases hab : a = b
        · subst hab
          rw [findBr_decomp_self x3 _ hx1]
          have hfbr : findBr f a = some cs := by
            rw [hf]
            exact findBr_decomp_self x3 cs hx1
          rw [findNodeT, hfbr] at h
          refine ih ?_ h
          intro ⟨h1, h2⟩
          exact hne ⟨rfl, by rw [h1, h2]⟩
        · have hba : ¬b = a := fun hc => hab hc.symm
          rw [findBr_branch_mid_ne x1 x3 b _ cs hba, ← hf]
          rw [findNodeT] at h
          exact h
    | none =>
      rw [insertT_cons_none b' bs' v hsp]
      cases as with
      | nil =>
        show findNd (f ++ [.branch b (insertT b' bs' v [])]) a = none
        rw [findNd_append_none _ h, findNd, findNd]
      | cons a' as' =>
        rw [findNodeT]
        by_cases hab : a = b
        · subst hab
          have hfb : findBr f a = none := splitAtBranch_none hsp
          rw [findBr_append_none _ hfb, findBr, if_pos rfl]
          refine ih ?_ (findNodeT_nil_forest a' as')
          intro ⟨h1, h2⟩
          exact hne ⟨rfl, by rw [h1, h2]⟩
        · have hba : ¬b = a := fun hc => hab hc.symm
          rw [findNodeT] at h
          cases hfa : findBr f a with
          | some c =>
            rw [findBr_append_some _ hfa]
            rw [hfa] at h
            exact h
          | none =>
            rw [findBr_append_none _ hfa, findBr, if_neg hba, findBr]

end SurfT

namespace SurfT

theorem isRoot_iff {p : Surf.Path} : p.isRoot = true ↔ p = Surf.Path.rootP := by
  rw [Surf.Path.isRoot]
  exact decide_eq_true_iff

theorem keyOf_fullPathOf (p : Surf.Path) (n : Surf.Label) :
    keyOf (fullPathOf p n) = p := by
  by_cases hr : p.isRoot
  · rw [fullPathOf, if_pos hr, keyOf, if_pos rfl]
    exact (isRoot_iff.mp hr).symm
  · rw [fullPathOf, if_neg hr, keyOf]
    rw [if_neg (by simp)]
    show (⟨p.hd, (p.tl ++ [n]).dropLast⟩ : Surf.Path) = p
    rw [List.dropLast_concat]

theorem fullPathOf_inj (p : Surf.Path) :
    Function.Injective (fullPathOf p) := by
  intro n1 n2 h
  by_cases hr : p.isRoot
  · rw [fullPathOf, fullPathOf, if_pos hr, if_pos hr] at h
    simp only [Prod.mk.injEq] at h
    exact h.1
  · rw [fullPathOf, fullPathOf, if_neg hr, if_neg hr] at h
    simp only [Prod.mk.injEq] at h
    exact List.singleton_injective (List.append_cancel_left h.2)

theorem step_subDirs (d : Directory2) (path : Surf.Path) (n : Surf.Label)
    (v : File2) :
    ((if path.isRoot then d.insertFile ⟨n, []⟩ v
      else d.insertFile (path.push n) v)).subDirectories =
      insertT (fullPathOf path n).1 (fullPathOf path n).2 v
        d.subDirectories := by
  by_cases hr : path.isRoot
  · rw [if_pos hr, fullPathOf, if_pos hr, insertFile_subDirs]
  · rw [if_neg hr, fullPathOf, if_neg hr, insertFile_subDirs]
    rfl

theorem fromEntry_size {path : Surf.Path} :
    ∀ (nf : List (Surf.Label × File2)) (d : Directory2),
    (∀ q ∈ nf.map (fun x => fullPathOf path x.1),
      findNodeT q.1 q.2 d.subDirectories = none) →
    (nf.map (fun x => fullPathOf path x.1)).Nodup →
    sizeT (fromEntry d path nf).subDirectories =
      sizeT d.subDirectories + (nf.map (fun x => x.2.size)).sum := by
  intro nf
  induction nf with
  | nil =>
    intro d _ _
    rw [fromEntry_nil, List.map_nil, List.sum_nil]
    omega
  | cons x xs ih =>
    intro d hall hnd
    rw [fromEntry_cons]
    have hq : findNodeT (fullPathOf path x.1).1 (fullPathOf path x.1).2
        d.subDirectories = none :=
      hall _ (by rw [List.map_cons]; exact List.mem_cons_self _ _)
    have hstep : sizeT ((if path.isRoot then d.insertFile ⟨x.1, []⟩ x.2
        else d.insertFile (path.push x.1) x.2)).subDirectories =
        sizeT d.subDirectories + x.2.size := by
      rw [step_subDirs, sizeT_insertT x.2 hq]
    rw [List.map_cons] at hnd
    have hnotmem := (List.nodup_cons.mp hnd).1
    have hnd' := (List.nodup_cons.mp hnd).2
    rw [ih _ ?_ hnd', hstep, List.map_cons, List.sum_cons]
    · omega
    · intro q hqmem
      have hne : ¬(q.1 = (fullPathOf path x.1).1 ∧
          q.2 = (fullPathOf path x.1).2) := by
        intro ⟨h1, h2⟩
        apply hnotmem
        have : q = fullPathOf path x.1 := Prod.ext h1 h2
        rw [← this]
        exact hqmem
      rw [step_subDirs]
      exact findNodeT_insertT_frame x.2 hne
        (hall q (by rw [List.map_cons]; exact List.mem_cons_of_mem _ hqmem))

theorem fromEntry_frame {path : Surf.Path} {q : Surf.Label × List Surf.Label} :
    ∀ (nf : List (Surf.Label × File2)) (d : Directory2),
    (∀ x ∈ nf, q ≠ fullPathOf path x.1) →
    findNodeT q.1 q.2 d.subDirectories = none →
    findNodeT q.1 q.2 (fromEntry d path nf).subDirectories = none := by
  intro nf
  induction nf with
  | nil => intro d _ h; exact h
  | cons x xs ih =>
    intro d hq h
    rw [fromEntry_cons]
    refine ih _ (fun y hy => hq y (List.mem_cons_of_mem _ hy)) ?_
    rw [step_subDirs]
    refine findNodeT_insertT_frame x.2 ?_ h
    intro ⟨h1, h2⟩
    exact hq x (List.mem_cons_self _ _) (Prod.ext h1 h2)

theorem totalSize_cons (e : Surf.Path × NamedFiles)
    (m : List (Surf.Path × NamedFiles)) :
    totalSize (e :: m) = entrySize e + totalSize m := by
  simp [totalSize]

theorem fold_size : ∀ (m : List (Surf.Path × NamedFiles)) (d : Directory2),
    (∀ q ∈ fullPaths m, findNodeT q.1 q.2 d.subDirectories = none) →
    (fullPaths m).Nodup →
    sizeT ((m.foldl (fun acc e => fromEntry acc e.1 e.2.toList)
      d)).subDirectories = sizeT d.subDirectories + totalSize m := by
  intro m
  induction m with
  | nil =>
    intro d _ _
    rw [List.foldl_nil, totalSize, List.map_nil, List.sum_nil]
    omega
  | cons e m' ih =>
    intro d hall hnd
    rw [fullPaths] at hall hnd
    rw [List.nodup_append] at hnd
    obtain ⟨hnd1, hnd2, hdisj⟩ := hnd
    rw [List.foldl_cons]
    have hsz1 : sizeT (fromEntry d e.1 e.2.toList).subDirectories =
        sizeT d.subDirectories + entrySize e := by
      rw [entrySize]
      exact fromEntry_size e.2.toList d
        (fun q hq => hall q (List.mem_append_left _ hq)) hnd1
    rw [ih _ ?_ hnd2, hsz1, totalSize_cons]
    · omega
    · intro q hq
      refine fromEntry_frame e.2.toList d ?_
        (hall q (List.mem_append_right _ hq))
      intro x hx heq
      exact hdisj (heq ▸ List.mem_map_of_mem _ hx) hq

theorem fullPaths_keyOf_mem {m : List (Surf.Path × NamedFiles)}
    {q : Surf.Label × List Surf.Label} (h : q ∈ fullPaths m) :
    keyOf q ∈ m.map Prod.fst := by
  induction m with
  | nil => simp [fullPaths] at h
  | cons e m' ih =>
    rw [fullPaths] at h
    rw [List.mem_append] at h
    cases h with
    | inl hl =>
      rw [entryFulls, List.mem_map] at hl
      obtain ⟨nf, _, heq⟩ := hl
      rw [← heq, keyOf_fullPathOf]
      exact List.mem_map_of_mem _ (List.mem_cons_self _ _)
    | inr hr =>
      rw [List.map_cons]
      exact List.mem_cons_of_mem _ (ih hr)

theorem fullPaths_nodup {m : List (Surf.Path × NamedFiles)}
    (hkeys : (m.map Prod.fst).Nodup)
    (hlabels : ∀ e ∈ m, (e.2.toList.map Prod.fst).Nodup) :
    (fullPaths m).Nodup := by
  induction m with
  | nil => exact List.nodup_nil
  | cons e m' ih =>
    rw [fullPaths, List.nodup_append]
    rw [List.map_cons, List.nodup_cons] at hkeys
    refine ⟨?_, ih hkeys.2 (fun e' he' => hlabels e' (List.mem_cons_of_mem _ he')), ?_⟩
    · rw [entryFulls]
      have : (e.2.toList.map fun nf => fullPathOf e.1 nf.1) =
          (e.2.toList.map Prod.fst).map (fullPathOf e.1) := by
        rw [List.map_map]
        rfl
      rw [this]
      exact (hlabels e (List.mem_cons_self _ _)).map (fullPathOf_inj e.1)
    · intro q hq1 hq2
      rw [entryFulls, List.mem_map] at hq1
      obtain ⟨nf, _, heq⟩ := hq1
      have hk : keyOf q = e.1 := by rw [← heq, keyOf_fullPathOf]
      exact hkeys.1 (hk ▸ fullPaths_keyOf_mem hq2)

/-- C7 counterexample: an entry containing two files with the same name; the
second insertion overwrites the first, so size reports 2 instead of the
claimed sum 3. -/
theorem c7_counterexample :
    (File2.new [0]).size + (File2.new [0, 0]).size = 3 ∧
    (Directory2.fromHashMap
      [(⟨"d", []⟩, (("x", File2.new [0]),
        [("x", File2.new [0, 0])]))]).size = 2 := by
  constructor
  · rfl
  · simp [Directory2.size, sizeT, Directory2.fromHashMap, NamedFiles.toList,
      fromEntry, Directory2.insertFile, insertT, putNode, hasNode,
      replaceNodeF, splitAtBranch, Directory2.rootD, Surf.Path.isRoot,
      Surf.Path.rootP, Surf.Label.rootL, Surf.Path.push, File2.new]

/-- C7 (amended): for every mapping with distinct directory-path keys whose
entries carry distinct file names, the size of the built tree is exactly the
sum of all the files' sizes, independent of nesting depth and of the order
of the mapping; and the stored size of a file built by File::new is the byte
length of its contents. -/
theorem c7_size_sum (m : List (Surf.Path × NamedFiles))
    (hkeys : (m.map Prod.fst).Nodup)
    (hlabels : ∀ e ∈ m, (e.2.toList.map Prod.fst).Nodup) :
    (Directory2.fromHashMap m).size = totalSize m ∧
    ∀ c : List Nat, (File2.new c).size = c.length := by
  constructor
  · rw [Directory2.size, Directory2.fromHashMap]
    rw [fold_size m Directory2.rootD
      (fun q _ => findNodeT_nil_forest q.1 q.2)
      (fullPaths_nodup hkeys hlabels)]
    rw [show sizeT Directory2.rootD.subDirectories = 0 from by
      rw [show Directory2.rootD.subDirectories = [] from rfl, sizeT]]
    omega
  · intro c
    rfl

/-- C7 witness: two files of sizes 1 and 2 at different nesting depths sum
to 3. -/
theorem c7_witness :
    (([(Surf.Path.rootP, (("a", File2.new [7]), [])),
       (⟨"d", ["e"]⟩, (("b", File2.new [1, 2]), []))] :
      List (Surf.Path × NamedFiles)).map Prod.fst).Nodup ∧
    (Directory2.fromHashMap
      [(Surf.Path.rootP, (("a", File2.new [7]), [])),
       (⟨"d", ["e"]⟩, (("b", File2.new [1, 2]), []))]).size = 3 :=
  ⟨by decide,
    by
      have h := c7_size_sum
        [(Surf.Path.rootP, (("a", File2.new [7]), [])),
         (⟨"d", ["e"]⟩, (("b", File2.new [1, 2]), []))]
        (by decide)
        (by
          intro e he
          simp only [List.mem_cons, List.mem_singleton] at he
          rcases he with rfl | rfl | he
          · decide
          · decide
          · simp at he)
      rw [h.1]
      decide⟩

end SurfT

namespace Surf

theorem filesAt_nil (d : Directory) : filesAt d [] = d.filesSeq := rfl

theorem subLabelsAt_nil (d : Directory) : subLabelsAt d [] = d.subLabels :=
  rfl

theorem dirAt_cons_some {d c : Directory} {x : Label} (q : List Label)
    (h : d.subDirectory x = some c) : dirAt d (x :: q) = dirAt c q := by
  rw [dirAt_cons, h]
  rfl

theorem dirAt_cons_none {d : Directory} {x : Label} (q : List Label)
    (h : d.subDirectory x = none) : dirAt d (x :: q) = none := by
  rw [dirAt_cons, h]
  rfl

theorem filesAt_cons_some {d c : Directory} {x : Label} (q : List Label)
    (h : d.subDirectory x = some c) : filesAt d (x :: q) = filesAt c q := by
  unfold filesAt
  rw [dirAt_cons_some q h]

theorem filesAt_cons_none {d : Directory} {x : Label} (q : List Label)
    (h : d.subDirectory x = none) : filesAt d (x :: q) = [] := by
  unfold filesAt
  rw [dirAt_cons_none q h]
  rfl

theorem subLabelsAt_cons_some {d c : Directory} {x : Label} (q : List Label)
    (h : d.subDirectory x = some c) :
    subLabelsAt d (x :: q) = subLabelsAt c q := by
  unfold subLabelsAt
  rw [dirAt_cons_some q h]

theorem subLabelsAt_cons_none {d : Directory} {x : Label} (q : List Label)
    (h : d.subDirectory x = none) : subLabelsAt d (x :: q) = [] := by
  unfold subLabelsAt
  rw [dirAt_cons_none q h]
  rfl

theorem filesAt_of_dirAt {d e : Directory} {q : List Label}
    (h : dirAt d q = some e) : filesAt d q = e.filesSeq := by
  unfold filesAt
  rw [h]
  rfl

theorem subLabelsAt_of_dirAt {d e : Directory} {q : List Label}
    (h : dirAt d q = some e) : subLabelsAt d q = e.subLabels := by
  unfold subLabelsAt
  rw [h]
  rfl

theorem filesAt_of_dirAt_none {d : Directory} {q : List Label}
    (h : dirAt d q = none) : filesAt d q = [] := by
  unfold filesAt
  rw [h]
  rfl

theorem subLabelsAt_of_dirAt_none {d : Directory} {q : List Label}
    (h : dirAt d q = none) : subLabelsAt d q = [] := by
  unfold subLabelsAt
  rw [h]
  rfl

theorem mem_subLabels_entries (es : List DirectoryContents) (l : Label) :
    l ∈ es.filterMap subLabelOf ↔ (es.findSome? (subView l)).isSome := by
  induction es with
  | nil => simp [List.findSome?]
  | cons e rest ih =>
    rw [List.findSome?_cons]
    cases e with
    | subDirectory s =>
      by_cases h : s.label = l
      · rw [show subView l (.subDirectory s) = some s by simp [subView, h]]
        rw [show (DirectoryContents.subDirectory s :: rest).filterMap
            subLabelOf = s.label :: rest.filterMap subLabelOf from rfl]
        simp [h]
      · rw [show subView l (.subDirectory s) = none by simp [subView, h]]
        rw [show (DirectoryContents.subDirectory s :: rest).filterMap
            subLabelOf = s.label :: rest.filterMap subLabelOf from rfl]
        rw [List.mem_cons]
        constructor
        · intro hmem
          cases hmem with
          | inl heq => exact absurd heq.symm h
          | inr hm => exact ih.mp hm
        · intro hs
          exact Or.inr (ih.mpr hs)
    | file f =>
      rw [show subView l (.file f) = none from rfl]
      rw [show (DirectoryContents.file f :: rest).filterMap subLabelOf =
        rest.filterMap subLabelOf from rfl]
      exact ih
    | repo =>
      rw [show subView l DirectoryContents.repo = none from rfl]
      rw [show (DirectoryContents.repo :: rest).filterMap subLabelOf =
        rest.filterMap subLabelOf from rfl]
      exact ih

theorem mem_subLabels_iff (d : Directory) (l : Label) :
    l ∈ d.subLabels ↔ (d.subDirectory l).isSome :=
  mem_subLabels_entries d.entriesList l

theorem pushEntry_filesSeq_file (d : Directory) (f : File) :
    (d.pushEntry (.file f)).filesSeq = d.filesSeq ++ [f] := by
  unfold Directory.filesSeq
  rw [pushEntry_entriesList, List.filterMap_append]
  rfl

theorem pushEntry_filesSeq_sub (d : Directory) (o : Directory) :
    (d.pushEntry (.subDirectory o)).filesSeq = d.filesSeq := by
  unfold Directory.filesSeq
  rw [pushEntry_entriesList, List.filterMap_append]
  simp [fileOf]

theorem pushEntry_filesSeq_repo (d : Directory) :
    (d.pushEntry .repo).filesSeq = d.filesSeq := by
  unfold Directory.filesSeq
  rw [pushEntry_entriesList, List.filterMap_append]
  simp [fileOf]

theorem pushEntry_subLabels_file (d : Directory) (f : File) :
    (d.pushEntry (.file f)).subLabels = d.subLabels := by
  unfold Directory.subLabels
  rw [pushEntry_entriesList, List.filterMap_append]
  simp [subLabelOf]

theorem pushEntry_subLabels_sub (d : Directory) (o : Directory) :
    (d.pushEntry (.subDirectory o)).subLabels = d.subLabels ++ [o.label] := by
  unfold Directory.subLabels
  rw [pushEntry_entriesList, List.filterMap_append]
  rfl

theorem pushEntry_subLabels_repo (d : Directory) :
    (d.pushEntry .repo).subLabels = d.subLabels := by
  unfold Directory.subLabels
  rw [pushEntry_entriesList, List.filterMap_append]
  simp [subLabelOf]

theorem pushEntry_subDirectory_file (d : Directory) (f : File) (x : Label) :
    (d.pushEntry (.file f)).subDirectory x = d.subDirectory x := by
  unfold Directory.subDirectory
  rw [pushEntry_entriesList]
  cases h : d.entriesList.findSome? (subView x) with
  | some s => exact findSome?_append_some _ _ h
  | none =>
    rw [findSome?_append_none_left _ _ h]
    rfl

theorem pushEntry_subDirectory_repo (d : Directory) (x : Label) :
    (d.pushEntry .repo).subDirectory x = d.subDirectory x := by
  unfold Directory.subDirectory
  rw [pushEntry_entriesList]
  cases h : d.entriesList.findSome? (subView x) with
  | some s => exact findSome?_append_some _ _ h
  | none =>
    rw [findSome?_append_none_left _ _ h]
    rfl

theorem pushEntry_subDirectory_sub (d o : Directory) (x : Label) :
    (d.pushEntry (.subDirectory o)).subDirectory x =
      match d.subDirectory x with
      | some s => some s
      | none => if o.label = x then some o else none := by
  unfold Directory.subDirectory
  rw [pushEntry_entriesList]
  cases h : d.entriesList.findSome? (subView x) with
  | some s => exact findSome?_append_some _ _ h
  | none =>
    rw [findSome?_append_none_left _ _ h, List.findSome?_cons]
    by_cases ho : o.label = x
    · simp [subView, ho]
    · simp [subView, ho, List.findSome?]

end Surf

namespace Surf

theorem addContents_entriesList (d : Directory)
    (es : List DirectoryContents) :
    (d.addContents es).entriesList = d.entriesList ++ es := by
  cases d
  rfl

theorem addContents_label (d : Directory) (es : List DirectoryContents) :
    (d.addContents es).label = d.label := by
  cases d
  rfl

theorem filterMap_fileOf_files (L : List File) :
    (L.map DirectoryContents.file).filterMap fileOf = L := by
  induction L with
  | nil => rfl
  | cons f fs ih =>
    rw [List.map_cons, show (DirectoryContents.file f ::
      fs.map DirectoryContents.file).filterMap fileOf =
      f :: (fs.map DirectoryContents.file).filterMap fileOf from rfl, ih]

theorem filterMap_subLabelOf_files (L : List File) :
    (L.map DirectoryContents.file).filterMap subLabelOf = [] := by
  induction L with
  | nil => rfl
  | cons f fs ih =>
    rw [List.map_cons, show (DirectoryContents.file f ::
      fs.map DirectoryContents.file).filterMap subLabelOf =
      (fs.map DirectoryContents.file).filterMap subLabelOf from rfl, ih]

theorem findSome?_subView_files (L : List File) (x : Label) :
    (L.map DirectoryContents.file).findSome? (subView x) = none := by
  induction L with
  | nil => rfl
  | cons f fs ih =>
    rw [List.map_cons, List.findSome?_cons,
      show subView x (.file f) = none from rfl, ih]

theorem addContents_files_spec (d : Directory) (L : List File) :
    (d.addContents (L.map .file)).label = d.label ∧
    (d.addContents (L.map .file)).filesSeq = d.filesSeq ++ L ∧
    (d.addContents (L.map .file)).subLabels = d.subLabels ∧
    ∀ x, (d.addContents (L.map .file)).subDirectory x = d.subDirectory x := by
  refine ⟨addContents_label d _, ?_, ?_, ?_⟩
  · unfold Directory.filesSeq
    rw [addContents_entriesList, List.filterMap_append,
      filterMap_fileOf_files]
  · unfold Directory.subLabels
    rw [addContents_entriesList, List.filterMap_append,
      filterMap_subLabelOf_files, List.append_nil]
  · intro x
    unfold Directory.subDirectory
    rw [addContents_entriesList]
    cases h : d.entriesList.findSome? (subView x) with
    | some s => exact findSome?_append_some _ _ h
    | none =>
      rw [findSome?_append_none_left _ _ h, findSome?_subView_files]

theorem combineInto_files_spec (L : List File) :
    ∀ S : Directory,
    (combineInto S (L.map .file)).label = S.label ∧
    (combineInto S (L.map .file)).filesSeq = S.filesSeq ++ L ∧
    (combineInto S (L.map .file)).subLabels = S.subLabels ∧
    ∀ x, (combineInto S (L.map .file)).subDirectory x = S.subDirectory x := by
  induction L with
  | nil =>
    intro S
    rw [show (([] : List File).map DirectoryContents.file) = [] from rfl,
      combineInto]
    exact ⟨rfl, by rw [List.append_nil], rfl, fun x => rfl⟩
  | cons f fs ih =>
    intro S
    rw [List.map_cons, combineInto]
    obtain ⟨h1, h2, h3, h4⟩ := ih (S.pushEntry (.file f))
    refine ⟨h1.trans (pushEntry_label S _), ?_, ?_, ?_⟩
    · rw [h2, pushEntry_filesSeq_file, List.append_assoc]
      rfl
    · rw [h3, pushEntry_subLabels_file]
    · intro x
      rw [h4 x, pushEntry_subDirectory_file]

theorem replaceSub_filesSeq (es : List DirectoryContents) (l : Label)
    (nd : Directory) :
    (replaceSub es l nd).filterMap fileOf = es.filterMap fileOf := by
  induction es with
  | nil => rfl
  | cons e rest ih =>
    cases e with
    | subDirectory d0 =>
      by_cases hd0 : d0.label = l
      · rw [replaceSub_sub_eq rest nd hd0]
        rw [show (DirectoryContents.subDirectory nd :: rest).filterMap
          fileOf = rest.filterMap fileOf from rfl]
        rfl
      · rw [replaceSub_sub_ne rest nd hd0]
        rw [show ∀ bs, (DirectoryContents.subDirectory d0 :: bs).filterMap
          fileOf = bs.filterMap fileOf from fun _ => rfl, ih]
        rfl
    | file f =>
      rw [replaceSub_file]
      rw [show ∀ bs, (DirectoryContents.file f :: bs).filterMap fileOf =
        f :: bs.filterMap fileOf from fun _ => rfl, ih]
      rfl
    | repo =>
      rw [replaceSub_repo]
      rw [show ∀ bs, (DirectoryContents.repo :: bs).filterMap fileOf =
        bs.filterMap fileOf from fun _ => rfl, ih]
      rfl

theorem replaceSub_subLabels {es : List DirectoryContents} {l : Label}
    {S : Directory} (nd : Directory)
    (hfound : es.findSome? (subView l) = some S) (hlab : nd.label = l) :
    (replaceSub es l nd).filterMap subLabelOf =
      es.filterMap subLabelOf := by
  induction es with
  | nil => simp [List.findSome?] at hfound
  | cons e rest ih =>
    rw [List.findSome?_cons] at hfound
    cases e with
    | subDirectory d0 =>
      by_cases hd0 : d0.label = l
      · rw [replaceSub_sub_eq rest nd hd0]
        rw [show ∀ z bs, (DirectoryContents.subDirectory z :: bs).filterMap
          subLabelOf = z.label :: bs.filterMap subLabelOf
          from fun _ _ => rfl]
        rw [show ∀ z bs, (DirectoryContents.subDirectory z :: bs).filterMap
          subLabelOf = z.label :: bs.filterMap subLabelOf
          from fun _ _ => rfl, hlab, hd0]
      · have h0 : subView l (.subDirectory d0) = none := by
          simp [subView, hd0]
        rw [h0] at hfound
        rw [replaceSub_sub_ne rest nd hd0]
        rw [show ∀ z bs, (DirectoryContents.subDirectory z :: bs).filterMap
          subLabelOf = z.label :: bs.filterMap subLabelOf
          from fun _ _ => rfl]
        rw [show ∀ z bs, (DirectoryContents.subDirectory z :: bs).filterMap
          subLabelOf = z.label :: bs.filterMap subLabelOf
          from fun _ _ => rfl, ih hfound]
    | file f =>
      rw [show subView l (.file f) = none from rfl] at hfound
      rw [replaceSub_file]
      rw [show ∀ bs, (DirectoryContents.file f :: bs).filterMap subLabelOf =
        bs.filterMap subLabelOf from fun _ => rfl]
      rw [show ∀ bs, (DirectoryContents.file f :: bs).filterMap subLabelOf =
        bs.filterMap subLabelOf from fun _ => rfl, ih hfound]
    | repo =>
      rw [show subView l DirectoryContents.repo = none from rfl] at hfound
      rw [replaceSub_repo]
      rw [show ∀ bs, (DirectoryContents.repo :: bs).filterMap subLabelOf =
        bs.filterMap subLabelOf from fun _ => rfl]
      rw [show ∀ bs, (DirectoryContents.repo :: bs).filterMap subLabelOf =
        bs.filterMap subLabelOf from fun _ => rfl, ih hfound]

end Surf

namespace Surf

theorem baseDir_label (cur : Label) (fs : Files) :
    (baseDir cur fs).label = cur := rfl

theorem baseDir_entriesList (cur : Label) (fs : Files) :
    (baseDir cur fs).entriesList = fs.toList.map .file := rfl

theorem baseDir_filesSeq (cur : Label) (fs : Files) :
    (baseDir cur fs).filesSeq = fs.toList := by
  unfold Directory.filesSeq
  rw [baseDir_entriesList, filterMap_fileOf_files]

theorem baseDir_subLabels (cur : Label) (fs : Files) :
    (baseDir cur fs).subLabels = [] := by
  unfold Directory.subLabels
  rw [baseDir_entriesList, filterMap_subLabelOf_files]

theorem baseDir_subDirectory (cur : Label) (fs : Files) (x : Label) :
    (baseDir cur fs).subDirectory x = none := by
  unfold Directory.subDirectory
  rw [baseDir_entriesList, findSome?_subView_files]

theorem chainD_baseDir_label (pre : List Label) (cur : Label) (fs : Files) :
    (chainD pre (baseDir cur fs)).label = headLbl pre cur := by
  cases pre with
  | nil => rfl
  | cons a pre' => rfl

theorem subDirectory_chainD_cons (a : Label) (pre' : List Label)
    (B : Directory) (x : Label) :
    (chainD (a :: pre') B).subDirectory x =
      if (chainD pre' B).label = x then some (chainD pre' B) else none := by
  show (Directory.mkdir a (chainD pre' B)).subDirectory x = _
  unfold Directory.mkdir Directory.subDirectory
  rw [show (Directory.mk a (.subDirectory (chainD pre' B))
    []).entriesList = [.subDirectory (chainD pre' B)] from rfl,
    List.findSome?_cons]
  by_cases h : (chainD pre' B).label = x
  · simp [subView, h]
  · simp [subView, h, List.findSome?]

theorem chainD_cons_filesSeq (a : Label) (pre' : List Label)
    (B : Directory) : (chainD (a :: pre') B).filesSeq = [] := rfl

theorem chainD_cons_subLabels (a : Label) (pre' : List Label)
    (B : Directory) :
    (chainD (a :: pre') B).subLabels = [(chainD pre' B).label] := rfl

theorem restChain_cons (a : Label) (pre' : List Label) (cur : Label) :
    restChain (a :: pre') cur = headLbl pre' cur :: restChain pre' cur := by
  cases pre' with
  | nil => rfl
  | cons b pre'' => rfl

theorem chain_obs (pre : List Label) (cur : Label) (fs : Files) :
    ∀ q : List Label,
    (filesAt (chainD pre (baseDir cur fs)) q =
      if q = restChain pre cur then fs.toList else []) ∧
    (∀ l rest, restChain pre cur = q ++ l :: rest →
      subLabelsAt (chainD pre (baseDir cur fs)) q = [l]) ∧
    ((∀ l rest, restChain pre cur ≠ q ++ l :: rest) →
      subLabelsAt (chainD pre (baseDir cur fs)) q = []) := by
  induction pre with
  | nil =>
    intro q
    rw [show chainD [] (baseDir cur fs) = baseDir cur fs from rfl,
      show restChain [] cur = [] from rfl]
    cases q with
    | nil =>
      refine ⟨?_, ?_, ?_⟩
      · rw [filesAt_nil, baseDir_filesSeq, if_pos rfl]
      · intro l rest h
        exact absurd h (by simp)
      · intro _
        rw [subLabelsAt_nil, baseDir_subLabels]
    | cons x q' =>
      refine ⟨?_, ?_, ?_⟩
      · rw [filesAt_cons_none q' (baseDir_subDirectory cur fs x),
          if_neg (by simp)]
      · intro l rest h
        exact absurd h (by simp)
      · intro _
        rw [subLabelsAt_cons_none q' (baseDir_subDirectory cur fs x)]
  | cons a pre' ih =>
    intro q
    rw [restChain_cons]
    have hlab : (chainD pre' (baseDir cur fs)).label = headLbl pre' cur :=
      chainD_baseDir_label pre' cur fs
    cases q with
    | nil =>
      refine ⟨?_, ?_, ?_⟩
      · rw [filesAt_nil, chainD_cons_filesSeq, if_neg (by simp)]
      · intro l rest h
        rw [List.nil_append] at h
        injection h with h1 _
        rw [subLabelsAt_nil, chainD_cons_subLabels, hlab, h1]
      · intro hno
        exact (hno (headLbl pre' cur) (restChain pre' cur)
          (List.nil_append _).symm).elim
    | cons x q' =>
      by_cases hx : headLbl pre' cur = x
      · have hsub : (chainD (a :: pre') (baseDir cur fs)).subDirectory x =
            some (chainD pre' (baseDir cur fs)) := by
          rw [subDirectory_chainD_cons, hlab, if_pos hx]
        obtain ⟨ih1, ih2, ih3⟩ := ih q'
        refine ⟨?_, ?_, ?_⟩
        · rw [filesAt_cons_some q' hsub, ih1]
          by_cases hq' : q' = restChain pre' cur
          · rw [if_pos hq', if_pos (by rw [hq', hx])]
          · rw [if_neg hq', if_neg (by
              intro hc
              injection hc with _ h2
              exact hq' h2)]
        · intro l rest h
          injection h with _ h2
          rw [subLabelsAt_cons_some q' hsub]
          exact ih2 l rest h2
        · intro hno
          rw [subLabelsAt_cons_some q' hsub]
          refine ih3 fun l rest hc => ?_
          exact hno l rest (by rw [hc, hx, List.cons_append])
      · have hsub : (chainD (a :: pre') (baseDir cur fs)).subDirectory x =
            none := by
          rw [subDirectory_chainD_cons, hlab, if_neg hx]
        refine ⟨?_, ?_, ?_⟩
        · rw [filesAt_cons_none q' hsub, if_neg (by
            intro hc
            injection hc with h1 _
            exact hx h1.symm)]
        · intro l rest h
          injection h with h1 _
          exact absurd h1 hx
        · intro _
          rw [subLabelsAt_cons_none q' hsub]
  
end Surf

namespace Surf

theorem chain_decomp (pre : List Label) (cur : Label) :
    pre ++ [cur] = headLbl pre cur :: restChain pre cur := by
  cases pre <;> rfl

theorem filesAt_cons_congr {a b : Directory} {x : Label}
    (h : a.subDirectory x = b.subDirectory x) (q' : List Label) :
    filesAt a (x :: q') = filesAt b (x :: q') := by
  cases hs : b.subDirectory x with
  | none => rw [filesAt_cons_none q' (h.trans hs), filesAt_cons_none q' hs]
  | some c => rw [filesAt_cons_some q' (h.trans hs), filesAt_cons_some q' hs]

theorem subLabelsAt_cons_congr {a b : Directory} {x : Label}
    (h : a.subDirectory x = b.subDirectory x) (q' : List Label) :
    subLabelsAt a (x :: q') = subLabelsAt b (x :: q') := by
  cases hs : b.subDirectory x with
  | none =>
    rw [subLabelsAt_cons_none q' (h.trans hs), subLabelsAt_cons_none q' hs]
  | some c =>
    rw [subLabelsAt_cons_some q' (h.trans hs), subLabelsAt_cons_some q' hs]

theorem combine_merge_level {R other S : Directory}
    (hS : R.subDirectory other.label = some S) :
    (combine R other).filesSeq = R.filesSeq ∧
    (combine R other).subLabels = R.subLabels := by
  obtain ⟨_, hent⟩ := combine_merge_entries hS
  have hfound : R.entriesList.findSome? (subView other.label) = some S := hS
  have hDlab : (combineInto S other.entriesList).label = other.label :=
    (grows_label (combineInto_grows S other.entriesList)).symm.symm.trans
      (findSome?_subView_label hfound) |>.symm.symm
  constructor
  · unfold Directory.filesSeq
    rw [hent, replaceSub_filesSeq]
  · unfold Directory.subLabels
    rw [hent, replaceSub_subLabels _ hfound ?_]
    rw [grows_label (combineInto_grows S other.entriesList)] at hDlab ⊢
    exact hDlab

theorem combine_chain_push (pre : List Label) (cur : Label) (fs : Files)
    (R : Directory) (hnone : R.subDirectory (headLbl pre cur) = none) :
    ∀ q : List Label,
    (filesAt (combine R (chainD pre (baseDir cur fs))) q =
      filesAt R q ++ (if q = pre ++ [cur] then fs.toList else [])) ∧
    (∀ l rest, pre ++ [cur] = q ++ l :: rest →
      subLabelsAt (combine R (chainD pre (baseDir cur fs))) q =
        if (dirAt R q).isSome then
          (if l ∈ subLabelsAt R q then subLabelsAt R q
           else subLabelsAt R q ++ [l])
        else [l]) ∧
    ((∀ l rest, pre ++ [cur] ≠ q ++ l :: rest) →
      subLabelsAt (combine R (chainD pre (baseDir cur fs))) q =
        subLabelsAt R q) := by
  intro q
  have hXlab : (chainD pre (baseDir cur fs)).label = headLbl pre cur :=
    chainD_baseDir_label pre cur fs
  have hcomb : combine R (chainD pre (baseDir cur fs)) =
      R.pushEntry (.subDirectory (chainD pre (baseDir cur fs))) :=
    combine_push (by rw [hXlab]; exact hnone)
  rw [hcomb]
  have hsubx : ∀ x, (R.pushEntry
      (.subDirectory (chainD pre (baseDir cur fs)))).subDirectory x =
      match R.subDirectory x with
      | some s => some s
      | none => if headLbl pre cur = x
          then some (chainD pre (baseDir cur fs)) else none := by
    intro x
    rw [pushEntry_subDirectory_sub, hXlab]
  cases q with
  | nil =>
    refine ⟨?_, ?_, ?_⟩
    · rw [filesAt_nil, filesAt_nil, pushEntry_filesSeq_sub,
        if_neg (by cases pre <;> simp), List.append_nil]
    · intro l rest h
      rw [chain_decomp] at h
      injection h with h1 _
      rw [subLabelsAt_nil, subLabelsAt_nil, pushEntry_subLabels_sub,
        dirAt_nil]
      rw [if_pos (by rfl)]
      rw [if_neg (by
        rw [mem_subLabels_iff, ← h1, hnone]
        simp)]
      rw [hXlab, h1]
    · intro hno
      exact (hno (headLbl pre cur) (restChain pre cur)
        (chain_decomp pre cur)).elim
  | cons x q' =>
    by_cases hx : headLbl pre cur = x
    · have hRx : R.subDirectory x = none := hx ▸ hnone
      have hcx : (R.pushEntry
          (.subDirectory (chainD pre (baseDir cur fs)))).subDirectory x =
          some (chainD pre (baseDir cur fs)) := by
        rw [hsubx x, hRx]
        exact if_pos hx
      obtain ⟨co1, co2, co3⟩ := chain_obs pre cur fs q'
      refine ⟨?_, ?_, ?_⟩
      · rw [filesAt_cons_some q' hcx, co1,
          filesAt_cons_none q' hRx, List.nil_append]
        rw [chain_decomp]
        by_cases hq' : q' = restChain pre cur
        · rw [if_pos hq', if_pos (by rw [hq', hx])]
        · rw [if_neg hq', if_neg (by
            intro hc
            injection hc with _ h2
            exact hq' h2)]
      · intro l rest h
        rw [chain_decomp] at h
        rw [List.cons_append] at h
        injection h with _ h2
        rw [subLabelsAt_cons_some q' hcx, co2 l rest h2,
          dirAt_cons_none q' hRx]
        simp
      · intro hno
        rw [subLabelsAt_cons_some q' hcx,
          subLabelsAt_cons_none q' hRx]
        refine co3 fun l rest hc => ?_
        exact hno l rest (by
          rw [chain_decomp, hc, hx, List.cons_append])
    · have hcx : (R.pushEntry
          (.subDirectory (chainD pre (baseDir cur fs)))).subDirectory x =
          R.subDirectory x := by
        rw [hsubx x]
        cases hR : R.subDirectory x with
        | some s => rfl
        | none => exact if_neg hx
      refine ⟨?_, ?_, ?_⟩
      · rw [filesAt_cons_congr hcx q', if_neg (by
          rw [chain_decomp]
          intro hc
          injection hc with h1 _
          exact hx h1.symm), List.append_nil]
      · intro l rest h
        rw [chain_decomp, List.cons_append] at h
        injection h with h1 _
        exact absurd h1 hx
      · intro _
        exact subLabelsAt_cons_congr hcx q'

end Surf

namespace Surf

/-- The central characterization of `combine` with one chain built by
`Directory::from`: files are appended exactly at the chain's full label
list, and the sub-directory labels change only at proper prefixes of the
chain, where the next chain label is appended exactly when it was absent. -/
theorem combine_chain (pre : List Label) (cur : Label) (fs : Files) :
    ∀ (R : Directory) (q : List Label),
    (filesAt (combine R (chainD pre (baseDir cur fs))) q =
      filesAt R q ++ (if q = pre ++ [cur] then fs.toList else [])) ∧
    (∀ l rest, pre ++ [cur] = q ++ l :: rest →
      subLabelsAt (combine R (chainD pre (baseDir cur fs))) q =
        if (dirAt R q).isSome then
          (if l ∈ subLabelsAt R q then subLabelsAt R q
           else subLabelsAt R q ++ [l])
        else [l]) ∧
    ((∀ l rest, pre ++ [cur] ≠ q ++ l :: rest) →
      subLabelsAt (combine R (chainD pre (baseDir cur fs))) q =
        subLabelsAt R q) := by
  induction pre with
  | nil =>
    intro R q
    cases hS : R.subDirectory cur with
    | none => exact combine_chain_push [] cur fs R hS q
    | some S =>
      have hS' : R.subDirectory (chainD [] (baseDir cur fs)).label =
          some S := hS
      obtain ⟨hclab, hcsub, _⟩ := combine_merge_lookup hS'
      obtain ⟨hfseq, hslab⟩ := combine_merge_level hS'
      simp only [show (chainD [] (baseDir cur fs)).label = cur from rfl,
        show (chainD [] (baseDir cur fs)).entriesList =
          fs.toList.map DirectoryContents.file from rfl] at hcsub
      obtain ⟨hl, hfs, hsl, hsd⟩ := combineInto_files_spec fs.toList S
      cases q with
      | nil =>
        refine ⟨?_, ?_, ?_⟩
        · rw [filesAt_nil, filesAt_nil, hfseq, if_neg (by simp),
            List.append_nil]
        · intro l rest h
          rw [List.nil_append, List.nil_append] at h
          injection h with h1 h2
          subst h1
          rw [subLabelsAt_nil, subLabelsAt_nil, hslab, dirAt_nil,
            if_pos (by rfl),
            if_pos ((mem_subLabels_iff R cur).mpr (by rw [hS]; rfl))]
        · intro hno
          exact (hno cur [] (by simp)).elim
      | cons x q' =>
        by_cases hxc : x = cur
        · have hcx : (combine R (chainD [] (baseDir cur fs))).subDirectory
              x = some (combineInto S
                (fs.toList.map DirectoryContents.file)) := by
            rw [hcsub x, if_pos hxc]
          have hRx : R.subDirectory x = some S := by rw [hxc]; exact hS
          cases q' with
          | nil =>
            refine ⟨?_, ?_, ?_⟩
            · rw [filesAt_cons_some [] hcx, filesAt_cons_some [] hRx,
                filesAt_nil, filesAt_nil, hfs,
                if_pos (by rw [hxc]; rfl)]
            · intro l rest h
              rw [List.nil_append] at h
              injection h with _ h2
              exact List.noConfusion h2
            · intro _
              rw [subLabelsAt_cons_some [] hcx,
                subLabelsAt_cons_some [] hRx, subLabelsAt_nil,
                subLabelsAt_nil, hsl]
          | cons y q'' =>
            refine ⟨?_, ?_, ?_⟩
            · rw [filesAt_cons_some _ hcx, filesAt_cons_some _ hRx,
                filesAt_cons_congr (hsd y) q'', if_neg (by simp),
                List.append_nil]
            · intro l rest h
              rw [List.nil_append] at h
              injection h with _ h2
              simp at h2
            · intro _
              rw [subLabelsAt_cons_some _ hcx,
                subLabelsAt_cons_some _ hRx,
                subLabelsAt_cons_congr (hsd y) q'']
        · have hcx : (combine R (chainD [] (baseDir cur fs))).subDirectory
              x = R.subDirectory x := by
            rw [hcsub x, if_neg hxc]
          refine ⟨?_, ?_, ?_⟩
          · rw [filesAt_cons_congr hcx q', if_neg (by
              rw [List.nil_append]
              intro hc
              injection hc with h1 _
              exact hxc h1), List.append_nil]
          · intro l rest h
            rw [List.nil_append, List.cons_append] at h
            injection h with h1 _
            exact absurd h1.symm hxc
          · intro _
            exact subLabelsAt_cons_congr hcx q'
  | cons a pre' ih =>
    intro R q
    cases hS : R.subDirectory a with
    | none => exact combine_chain_push (a :: pre') cur fs R hS q
    | some S =>
      have hS' : R.subDirectory
          (chainD (a :: pre') (baseDir cur fs)).label = some S := hS
      obtain ⟨hclab, hcsub, _⟩ := combine_merge_lookup hS'
      obtain ⟨hfseq, hslab⟩ := combine_merge_level hS'
      simp only [show (chainD (a :: pre') (baseDir cur fs)).label = a
          from rfl, chainD_entries, combineInto_single] at hcsub
      cases q with
      | nil =>
        refine ⟨?_, ?_, ?_⟩
        · rw [filesAt_nil, filesAt_nil, hfseq, if_neg (by simp),
            List.append_nil]
        · intro l rest h
          rw [List.nil_append, List.cons_append] at h
          injection h with h1 _
          rw [subLabelsAt_nil, subLabelsAt_nil, hslab, dirAt_nil,
            if_pos (by rfl),
            if_pos ((mem_subLabels_iff R l).mpr (by rw [← h1, hS]; rfl))]
        · intro hno
          exact (hno a (pre' ++ [cur]) (by simp)).elim
      | cons x q' =>
        by_cases hxa : x = a
        · have hcx : (combine R
              (chainD (a :: pre') (baseDir cur fs))).subDirectory x =
              some (combine S (chainD pre' (baseDir cur fs))) := by
            rw [hcsub x, if_pos hxa]
          have hRx : R.subDirectory x = some S := by rw [hxa]; exact hS
          obtain ⟨ih1, ih2, ih3⟩ := ih S q'
          refine ⟨?_, ?_, ?_⟩
          · rw [filesAt_cons_some q' hcx, filesAt_cons_some q' hRx, ih1]
            by_cases hq' : q' = pre' ++ [cur]
            · rw [if_pos hq',
                if_pos (by rw [List.cons_append, hq', hxa])]
            · rw [if_neg hq', if_neg (by
                intro hc
                rw [List.cons_append] at hc
                injection hc with _ h2
                exact hq' h2)]
          · intro l rest h
            rw [List.cons_append, List.cons_append] at h
            injection h with _ h2
            rw [subLabelsAt_cons_some q' hcx, ih2 l rest h2,
              dirAt_cons_some q' hRx, subLabelsAt_cons_some q' hRx]
          · intro hno
            rw [subLabelsAt_cons_some q' hcx,
              subLabelsAt_cons_some q' hRx]
            refine ih3 fun l rest hc => ?_
            refine hno l rest ?_
            rw [List.cons_append, hc, ← hxa, ← List.cons_append]
        · have hcx : (combine R
              (chainD (a :: pre') (baseDir cur fs))).subDirectory x =
              R.subDirectory x := by
            rw [hcsub x, if_neg hxa]
          refine ⟨?_, ?_, ?_⟩
          · rw [filesAt_cons_congr hcx q', if_neg (by
              rw [List.cons_append]
              intro hc
              injection hc with h1 _
              exact hxa h1), List.append_nil]
          · intro l rest h
            rw [List.cons_append, List.cons_append] at h
            injection h with h1 _
            exact absurd h1.symm hxa
          · intro _
            exact subLabelsAt_cons_congr hcx q'

end Surf

namespace Surf

theorem fromStep_label (R : Directory) (e : Path × Files) :
    (fromStep R e).label = R.label := by
  unfold fromStep
  by_cases hr : e.1.isRoot
  · rw [if_pos hr, addContents_label]
  · rw [if_neg hr]
    exact grows_label (combine_grows R _)

theorem fromStep_spec (R : Directory) (e : Path × Files) :
    ∀ q : List Label,
    (filesAt (fromStep R e) q =
      filesAt R q ++ (if q = chainFor e.1 then e.2.toList else [])) ∧
    (∀ l rest, chainFor e.1 = q ++ l :: rest →
      subLabelsAt (fromStep R e) q =
        if (dirAt R q).isSome then
          (if l ∈ subLabelsAt R q then subLabelsAt R q
           else subLabelsAt R q ++ [l])
        else [l]) ∧
    ((∀ l rest, chainFor e.1 ≠ q ++ l :: rest) →
      subLabelsAt (fromStep R e) q = subLabelsAt R q) := by
  intro q
  unfold fromStep chainFor
  by_cases hr : e.1.isRoot
  · rw [if_pos hr, if_pos hr]
    rw [show fileEntries e.2 = e.2.toList.map DirectoryContents.file
      from rfl]
    obtain ⟨hlb, hfsq, hslb, hsd⟩ := addContents_files_spec R e.2.toList
    cases q with
    | nil =>
      refine ⟨?_, ?_, ?_⟩
      · rw [filesAt_nil, filesAt_nil, hfsq, if_pos rfl]
      · intro l rest h
        simp at h
      · intro _
        rw [subLabelsAt_nil, subLabelsAt_nil, hslb]
    | cons x q' =>
      refine ⟨?_, ?_, ?_⟩
      · rw [filesAt_cons_congr (hsd x) q', if_neg (by simp),
          List.append_nil]
      · intro l rest h
        simp at h
      · intro _
        exact subLabelsAt_cons_congr (hsd x) q'
  · rw [if_neg hr, if_neg hr]
    exact combine_chain e.1.splitLast.1 e.1.splitLast.2 e.2 R q

theorem fromList_fold_files :
    ∀ (m : List (Path × Files)) (R : Directory) (q : List Label),
    filesAt (m.foldl fromStep R) q = filesAt R q ++ filesFor m q := by
  intro m
  induction m with
  | nil =>
    intro R q
    rw [List.foldl_nil, filesFor, List.append_nil]
  | cons e m' ih =>
    intro R q
    rw [List.foldl_cons, ih (fromStep R e) q, (fromStep_spec R e q).1,
      filesFor, List.append_assoc]
    by_cases h : q = chainFor e.1
    · rw [if_pos h, if_pos h.symm]
    · rw [if_neg h, if_neg fun hc => h hc.symm]

theorem fromList_fold_label :
    ∀ (m : List (Path × Files)) (R : Directory),
    (m.foldl fromStep R).label = R.label := by
  intro m
  induction m with
  | nil => intro R; rw [List.foldl_nil]
  | cons e m' ih =>
    intro R
    rw [List.foldl_cons, ih (fromStep R e), fromStep_label]

theorem nodup_append_singleton {α : Type} {xs : List α} {a : α}
    (h : xs.Nodup) (ha : a ∉ xs) : (xs ++ [a]).Nodup := by
  rw [List.nodup_append]
  exact ⟨h, List.nodup_singleton a, fun x hx hmem => by
    rw [List.mem_singleton] at hmem
    exact ha (hmem ▸ hx)⟩

theorem fromList_fold_subNodup :
    ∀ (m : List (Path × Files)) (R : Directory),
    (∀ q, (subLabelsAt R q).Nodup) →
    ∀ q, (subLabelsAt (m.foldl fromStep R) q).Nodup := by
  intro m
  induction m with
  | nil =>
    intro R h q
    rw [List.foldl_nil]
    exact h q
  | cons e m' ih =>
    intro R h
    rw [List.foldl_cons]
    refine ih (fromStep R e) ?_
    intro q
    obtain ⟨_, hs2, hs3⟩ := fromStep_spec R e q
    by_cases hpre : q <+: chainFor e.1
    · obtain ⟨t, ht⟩ := hpre
      cases t with
      | nil =>
        rw [List.append_nil] at ht
        rw [hs3 fun l rest hc => ?_]
        · exact h q
        · rw [← ht] at hc
          have h0 : q ++ l :: rest = q ++ ([] : List Label) := by
            rw [List.append_nil]
            exact hc.symm
          exact List.noConfusion (List.append_cancel_left h0)
      | cons l rest =>
        rw [hs2 l rest ht.symm]
        by_cases hd : (dirAt R q).isSome
        · rw [if_pos hd]
          by_cases hm : l ∈ subLabelsAt R q
          · rw [if_pos hm]
            exact h q
          · rw [if_neg hm]
            exact nodup_append_singleton (h q) hm
        · rw [if_neg hd]
          exact List.nodup_singleton l
    · rw [hs3 fun l rest hc => hpre ⟨l :: rest, hc.symm⟩]
      exact h q

theorem fromList_fold_subBound :
    ∀ (m : List (Path × Files)) (R : Directory) (q : List Label)
      (x : Label), x ∈ subLabelsAt (m.foldl fromStep R) q →
    x ∈ subLabelsAt R q ∨
      ∃ e ∈ m, ∃ rest, chainFor e.1 = q ++ x :: rest := by
  intro m
  induction m with
  | nil =>
    intro R q x h
    rw [List.foldl_nil] at h
    exact Or.inl h
  | cons e m' ih =>
    intro R q x h
    rw [List.foldl_cons] at h
    cases ih (fromStep R e) q x h with
    | inr hex =>
      obtain ⟨e', he', rest, hc⟩ := hex
      exact Or.inr ⟨e', List.mem_cons_of_mem _ he', rest, hc⟩
    | inl hmem =>
      obtain ⟨_, hs2, hs3⟩ := fromStep_spec R e q
      by_cases hpre : q <+: chainFor e.1
      · obtain ⟨t, ht⟩ := hpre
        cases t with
        | nil =>
          rw [List.append_nil] at ht
          rw [hs3 fun l rest hc => ?_] at hmem
          · exact Or.inl hmem
          · rw [← ht] at hc
            have h0 : q ++ l :: rest = q ++ ([] : List Label) := by
              rw [List.append_nil]
              exact hc.symm
            exact List.noConfusion (List.append_cancel_left h0)
        | cons l rest =>
          rw [hs2 l rest ht.symm] at hmem
          by_cases hd : (dirAt R q).isSome
          · rw [if_pos hd] at hmem
            by_cases hm : l ∈ subLabelsAt R q
            · rw [if_pos hm] at hmem
              exact Or.inl hmem
            · rw [if_neg hm] at hmem
              rw [List.mem_append, List.mem_singleton] at hmem
              cases hmem with
              | inl h1 => exact Or.inl h1
              | inr h2 =>
                exact Or.inr ⟨e, List.mem_cons_self _ _, rest,
                  by rw [← h2] at ht; exact ht.symm⟩
          · rw [if_neg hd] at hmem
            rw [List.mem_singleton] at hmem
            exact Or.inr ⟨e, List.mem_cons_self _ _, rest,
              by rw [← hmem] at ht; exact ht.symm⟩
      · rw [hs3 fun l rest hc => hpre ⟨l :: rest, hc.symm⟩] at hmem
        exact Or.inl hmem

end Surf

namespace Surf

theorem fromList_eq (r : Directory) (m : List (Path × Files)) :
    Directory.fromList r m = m.foldl fromStep (Directory.emptyRoot r) := rfl

theorem emptyRoot_label (r : Directory) :
    (Directory.emptyRoot r).label = Label.rootL := rfl

theorem testRepo_subDirectory (x : Label) :
    testRepoDirectory.subDirectory x = none := rfl

theorem emptyRoot_subDirectory (x : Label) :
    (Directory.emptyRoot testRepoDirectory).subDirectory x =
      if (".test" : Label) = x then some testRepoDirectory else none := by
  unfold Directory.emptyRoot Directory.mkdir Directory.subDirectory
  rw [show (Directory.mk Label.rootL
      (.subDirectory testRepoDirectory) []).entriesList =
    [.subDirectory testRepoDirectory] from rfl, List.findSome?_cons]
  by_cases h : (".test" : Label) = x
  · simp [subView, testRepoDirectory, Directory.label, h]
  · simp [subView, testRepoDirectory, Directory.label, h, List.findSome?]

theorem filesAt_emptyRoot (q : List Label) :
    filesAt (Directory.emptyRoot testRepoDirectory) q = [] := by
  cases q with
  | nil => rfl
  | cons x q' =>
    by_cases hx : (".test" : Label) = x
    · rw [filesAt_cons_some q' (by rw [emptyRoot_subDirectory, if_pos hx])]
      cases q' with
      | nil => rfl
      | cons y q'' =>
        rw [filesAt_cons_none q'' (testRepo_subDirectory y)]
    · rw [filesAt_cons_none q' (by rw [emptyRoot_subDirectory, if_neg hx])]

theorem subLabelsAt_emptyRoot_nodup (q : List Label) :
    (subLabelsAt (Directory.emptyRoot testRepoDirectory) q).Nodup := by
  cases q with
  | nil => exact List.nodup_singleton _
  | cons x q' =>
    by_cases hx : (".test" : Label) = x
    · rw [subLabelsAt_cons_some q'
        (by rw [emptyRoot_subDirectory, if_pos hx])]
      cases q' with
      | nil => exact List.nodup_nil
      | cons y q'' =>
        rw [subLabelsAt_cons_none q'' (testRepo_subDirectory y)]
        exact List.nodup_nil
    · rw [subLabelsAt_cons_none q'
        (by rw [emptyRoot_subDirectory, if_neg hx])]
      exact List.nodup_nil

theorem subLabelsAt_emptyRoot_bound {q : List Label} {x : Label}
    (h : x ∈ subLabelsAt (Directory.emptyRoot testRepoDirectory) q) :
    q = [] ∧ x = ".test" := by
  cases q with
  | nil =>
    rw [subLabelsAt_nil] at h
    rw [show (Directory.emptyRoot testRepoDirectory).subLabels = [".test"]
      from rfl, List.mem_singleton] at h
    exact ⟨rfl, h⟩
  | cons y q' =>
    by_cases hy : (".test" : Label) = y
    · rw [subLabelsAt_cons_some q'
        (by rw [emptyRoot_subDirectory, if_pos hy])] at h
      cases q' with
      | nil =>
        rw [show subLabelsAt testRepoDirectory [] = [] from rfl] at h
        exact absurd h (List.not_mem_nil x)
      | cons z q'' =>
        rw [subLabelsAt_cons_none q'' (testRepo_subDirectory z)] at h
        exact absurd h (List.not_mem_nil x)
    · rw [subLabelsAt_cons_none q'
        (by rw [emptyRoot_subDirectory, if_neg hy])] at h
      exact absurd h (List.not_mem_nil x)

theorem filesFor_nil_of_not_mem :
    ∀ (m : List (Path × Files)) (q : List Label),
    (∀ e ∈ m, chainFor e.1 ≠ q) → filesFor m q = [] := by
  intro m
  induction m with
  | nil => intro q _; rfl
  | cons e m' ih =>
    intro q h
    rw [filesFor, if_neg (h e (List.mem_cons_self _ _)),
      List.nil_append]
    exact ih q fun e' he' => h e' (List.mem_cons_of_mem _ he')

theorem filesFor_eq_of_mem :
    ∀ (m : List (Path × Files)),
    ((m.map fun e => chainFor e.1).Nodup) →
    ∀ e ∈ m, filesFor m (chainFor e.1) = e.2.toList := by
  intro m
  induction m with
  | nil => intro _ e he; exact absurd he (List.not_mem_nil e)
  | cons e0 m' ih =>
    intro hnd e he
    rw [List.map_cons, List.nodup_cons] at hnd
    cases he with
    | head =>
      rw [filesFor, if_pos rfl,
        filesFor_nil_of_not_mem m' (chainFor e0.1)
          (fun e' he' hc => hnd.1 (hc ▸ List.mem_map_of_mem _ he')),
        List.append_nil]
    | tail _ hm =>
      rw [filesFor, if_neg
        (fun hc : chainFor e0.1 = chainFor e.1 =>
          hnd.1 (hc ▸ List.mem_map_of_mem
            (fun e' => chainFor e'.1) hm)),
        List.nil_append]
      exact ih hnd.2 e hm

theorem filesFor_mem_bound :
    ∀ (m : List (Path × Files)) (q : List Label) (f : File),
    f ∈ filesFor m q → ∃ e ∈ m, chainFor e.1 = q ∧ f ∈ e.2.toList := by
  intro m
  induction m with
  | nil =>
    intro q f h
    exact absurd h (List.not_mem_nil f)
  | cons e0 m' ih =>
    intro q f h
    rw [filesFor, List.mem_append] at h
    cases h with
    | inl h1 =>
      by_cases hc : chainFor e0.1 = q
      · rw [if_pos hc] at h1
        exact ⟨e0, List.mem_cons_self _ _, hc, h1⟩
      · rw [if_neg hc] at h1
        exact absurd h1 (List.not_mem_nil f)
    | inr h2 =>
      obtain ⟨e, he, hc, hf⟩ := ih q f h2
      exact ⟨e, List.mem_cons_of_mem _ he, hc, hf⟩

theorem filesFor_labels_nodup (m : List (Path × Files))
    (hchains : (m.map fun e => chainFor e.1).Nodup)
    (hnames : ∀ e ∈ m, e.2.labels.Nodup) (q : List Label) :
    ((filesFor m q).map File.filename).Nodup := by
  by_cases hq : q ∈ m.map fun e => chainFor e.1
  · rw [List.mem_map] at hq
    obtain ⟨e, he, heq⟩ := hq
    rw [← heq, filesFor_eq_of_mem m hchains e he]
    exact hnames e he
  · rw [filesFor_nil_of_not_mem m q
      (fun e he hc => hq (hc ▸ List.mem_map_of_mem _ he))]
    exact List.nodup_nil

theorem count_childLabels (es : List DirectoryContents) (x : Label) :
    (es.filterMap labelOf).count x =
      ((es.filterMap fileOf).map File.filename).count x +
      (es.filterMap subLabelOf).count x := by
  induction es with
  | nil => rfl
  | cons e rest ih =>
    cases e with
    | subDirectory s =>
      rw [show (DirectoryContents.subDirectory s :: rest).filterMap labelOf
          = s.label :: rest.filterMap labelOf from rfl,
        show (DirectoryContents.subDirectory s :: rest).filterMap fileOf
          = rest.filterMap fileOf from rfl,
        show (DirectoryContents.subDirectory s :: rest).filterMap
          subLabelOf = s.label :: rest.filterMap subLabelOf from rfl,
        List.count_cons, List.count_cons, ih]
      omega
    | file f =>
      rw [show (DirectoryContents.file f :: rest).filterMap labelOf
          = f.filename :: rest.filterMap labelOf from rfl,
        show (DirectoryContents.file f :: rest).filterMap fileOf
          = f :: rest.filterMap fileOf from rfl,
        show (DirectoryContents.file f :: rest).filterMap subLabelOf
          = rest.filterMap subLabelOf from rfl,
        List.map_cons, List.count_cons, List.count_cons, ih]
      omega
    | repo =>
      rw [show (DirectoryContents.repo :: rest).filterMap labelOf
          = rest.filterMap labelOf from rfl,
        show (DirectoryContents.repo :: rest).filterMap fileOf
          = rest.filterMap fileOf from rfl,
        show (DirectoryContents.repo :: rest).filterMap subLabelOf
          = rest.filterMap subLabelOf from rfl, ih]

end Surf

namespace Surf

theorem subLabels_sublist_childLabels (es : List DirectoryContents) :
    List.Sublist (es.filterMap subLabelOf) (es.filterMap labelOf) := by
  induction es with
  | nil => exact List.Sublist.refl []
  | cons e rest ih =>
    cases e with
    | subDirectory s =>
      rw [show (DirectoryContents.subDirectory s :: rest).filterMap
          subLabelOf = s.label :: rest.filterMap subLabelOf from rfl,
        show (DirectoryContents.subDirectory s :: rest).filterMap labelOf
          = s.label :: rest.filterMap labelOf from rfl]
      exact List.Sublist.cons₂ _ ih
    | file f =>
      rw [show (DirectoryContents.file f :: rest).filterMap subLabelOf
          = rest.filterMap subLabelOf from rfl,
        show (DirectoryContents.file f :: rest).filterMap labelOf
          = f.filename :: rest.filterMap labelOf from rfl]
      exact List.Sublist.cons _ ih
    | repo =>
      rw [show (DirectoryContents.repo :: rest).filterMap subLabelOf
          = rest.filterMap subLabelOf from rfl,
        show (DirectoryContents.repo :: rest).filterMap labelOf
          = rest.filterMap labelOf from rfl]
      exact ih

theorem entry_mem_subLabels {s : Directory} :
    ∀ {es : List DirectoryContents},
    DirectoryContents.subDirectory s ∈ es →
    s.label ∈ es.filterMap subLabelOf := by
  intro es
  induction es with
  | nil => intro h; exact absurd h (List.not_mem_nil _)
  | cons e rest ih =>
    intro h
    cases h with
    | head =>
      rw [show (DirectoryContents.subDirectory s :: rest).filterMap
        subLabelOf = s.label :: rest.filterMap subLabelOf from rfl]
      exact List.mem_cons_self _ _
    | tail _ hm =>
      cases e with
      | subDirectory d0 =>
        rw [show (DirectoryContents.subDirectory d0 :: rest).filterMap
          subLabelOf = d0.label :: rest.filterMap subLabelOf from rfl]
        exact List.mem_cons_of_mem _ (ih hm)
      | file f =>
        rw [show (DirectoryContents.file f :: rest).filterMap subLabelOf
          = rest.filterMap subLabelOf from rfl]
        exact ih hm
      | repo =>
        rw [show (DirectoryContents.repo :: rest).filterMap subLabelOf
          = rest.filterMap subLabelOf from rfl]
        exact ih hm

theorem findSome?_subView_of_entry {s : Directory} :
    ∀ {es : List DirectoryContents},
    DirectoryContents.subDirectory s ∈ es →
    (es.filterMap subLabelOf).Nodup →
    es.findSome? (subView s.label) = some s := by
  intro es
  induction es with
  | nil => intro h _; exact absurd h (List.not_mem_nil _)
  | cons e rest ih =>
    intro h hnd
    rw [List.findSome?_cons]
    cases e with
    | subDirectory d0 =>
      rw [show (DirectoryContents.subDirectory d0 :: rest).filterMap
        subLabelOf = d0.label :: rest.filterMap subLabelOf from rfl,
        List.nodup_cons] at hnd
      by_cases hd0 : d0.label = s.label
      · rw [show subView s.label (.subDirectory d0) = some d0 by
          simp [subView, hd0]]
        cases h with
        | head => rfl
        | tail _ hm =>
          exact absurd (hd0 ▸ entry_mem_subLabels hm) hnd.1
      · rw [show subView s.label (.subDirectory d0) = none by
          simp [subView, hd0]]
        cases h with
        | head => exact absurd rfl hd0
        | tail _ hm => exact ih hm hnd.2
    | file f =>
      rw [show subView s.label (.file f) = none from rfl]
      cases h with
      | tail _ hm =>
        rw [show (DirectoryContents.file f :: rest).filterMap subLabelOf
          = rest.filterMap subLabelOf from rfl] at hnd
        exact ih hm hnd
    | repo =>
      rw [show subView s.label DirectoryContents.repo = none from rfl]
      cases h with
      | tail _ hm =>
        rw [show (DirectoryContents.repo :: rest).filterMap subLabelOf
          = rest.filterMap subLabelOf from rfl] at hnd
        exact ih hm hnd

theorem subDirectory_of_entry_mem {d s : Directory}
    (hmem : DirectoryContents.subDirectory s ∈ d.entriesList)
    (hnd : d.subLabels.Nodup) : d.subDirectory s.label = some s :=
  findSome?_subView_of_entry hmem hnd

theorem dirAt_snoc (d : Directory) (q : List Label) (x : Label) :
    dirAt d (q ++ [x]) =
      (dirAt d q).bind fun e => e.subDirectory x := by
  unfold dirAt
  rw [List.foldl_append]
  cases List.foldl (fun acc l => acc.bind fun dir => dir.subDirectory l)
      (some d) q with
  | none => rfl
  | some e => rfl

theorem reach_dirAt {F : Directory}
    (hPQ : ∀ q d, dirAt F q = some d → d.childLabels.Nodup) :
    ∀ d, ReachD F d → ∃ q, dirAt F q = some d := by
  intro d hreach
  induction hreach with
  | refl => exact ⟨[], dirAt_nil _⟩
  | child hr hmem ih =>
    rename_i b s
    obtain ⟨q, hq⟩ := ih
    have hnd : b.subLabels.Nodup :=
      (hPQ q b hq).sublist (subLabels_sublist_childLabels b.entriesList)
    refine ⟨q ++ [s.label], ?_⟩
    rw [dirAt_snoc, hq]
    exact subDirectory_of_entry_mem hmem hnd

end Surf

namespace Surf

theorem fromList_childLabels_nodup (m : List (Path × Files))
    (hchains : (m.map fun e => chainFor e.1).Nodup)
    (hnames : ∀ e ∈ m, e.2.labels.Nodup)
    (hnest : ∀ e1 ∈ m, ∀ e2 ∈ m, ∀ x rest,
      chainFor e2.1 = chainFor e1.1 ++ x :: rest → x ∉ e1.2.labels)
    (htest : ∀ e ∈ m, chainFor e.1 = [] →
      (".test" : Label) ∉ e.2.labels) :
    ∀ (q : List Label) (d : Directory),
      dirAt (Directory.fromList testRepoDirectory m) q = some d →
      d.childLabels.Nodup := by
  intro q d hq
  rw [fromList_eq] at hq
  have hfa := filesAt_of_dirAt hq
  have hfiles : d.filesSeq = filesFor m q := by
    rw [← hfa, fromList_fold_files, filesAt_emptyRoot, List.nil_append]
  have hsubl : d.subLabels =
      subLabelsAt (m.foldl fromStep
        (Directory.emptyRoot testRepoDirectory)) q :=
    (subLabelsAt_of_dirAt hq).symm
  have hslnd : d.subLabels.Nodup := by
    rw [hsubl]
    exact fromList_fold_subNodup m _ subLabelsAt_emptyRoot_nodup q
  have hflnd : (d.filesSeq.map File.filename).Nodup := by
    rw [hfiles]
    exact filesFor_labels_nodup m hchains hnames q
  have hdisj : ∀ x, x ∈ d.filesSeq.map File.filename →
      x ∈ d.subLabels → False := by
    intro x hxf hxs
    rw [hfiles, List.mem_map] at hxf
    obtain ⟨f, hf, hxeq⟩ := hxf
    obtain ⟨e1, he1, hq1, hfe1⟩ := filesFor_mem_bound m q f hf
    have hxl : x ∈ e1.2.labels := by
      rw [← hxeq]
      exact List.mem_map_of_mem File.filename hfe1
    rw [hsubl] at hxs
    cases fromList_fold_subBound m _ q x hxs with
    | inl h0 =>
      obtain ⟨hq0, hx0⟩ := subLabelsAt_emptyRoot_bound h0
      exact htest e1 he1 (hq0 ▸ hq1) (hx0 ▸ hxl)
    | inr hex =>
      obtain ⟨e2, he2, rest, hc⟩ := hex
      exact hnest e1 he1 e2 he2 x rest (by rw [hc, hq1]) hxl
  rw [List.nodup_iff_count_le_one]
  intro a
  rw [show d.childLabels = d.entriesList.filterMap labelOf from rfl,
    count_childLabels,
    show d.entriesList.filterMap fileOf = d.filesSeq from rfl,
    show d.entriesList.filterMap subLabelOf = d.subLabels from rfl]
  by_cases h1 : a ∈ d.filesSeq.map File.filename
  · by_cases h2 : a ∈ d.subLabels
    · exact (hdisj a h1 h2).elim
    · have c2 : d.subLabels.count a = 0 :=
        List.count_eq_zero_of_not_mem h2
      have c1 : (d.filesSeq.map File.filename).count a ≤ 1 :=
        List.nodup_iff_count_le_one.mp hflnd a
      omega
  · have c1 : (d.filesSeq.map File.filename).count a = 0 :=
      List.count_eq_zero_of_not_mem h1
    have c2 : d.subLabels.count a ≤ 1 :=
      List.nodup_iff_count_le_one.mp hslnd a
    omega

/-- C5 counterexample: a mapping whose root entry carries two files with the
same name builds a root directory with two children labelled "x". -/
theorem c5_counterexample :
    ¬ ((Directory.fromList testRepoDirectory
      [(Path.rootP, (⟨"x", [1]⟩, [⟨"x", [2]⟩]))]).childLabels).Nodup := by
  decide

/-- C5 (amended): if the mapping entries store chains that are pairwise
distinct, each entry's file names are distinct, no entry contains a file
whose name equals the next chain label of another entry nested strictly
below it, and no root-level entry contains a file named ".test", then in the
tree built by `Directory::from` over the test backend no two children of any
reachable directory share a label (file and sub-directory labels taken
together). -/
theorem c5_uniqueness_amended (m : List (Path × Files))
    (hchains : (m.map fun e => chainFor e.1).Nodup)
    (hnames : ∀ e ∈ m, e.2.labels.Nodup)
    (hnest : ∀ e1 ∈ m, ∀ e2 ∈ m, ∀ x rest,
      chainFor e2.1 = chainFor e1.1 ++ x :: rest → x ∉ e1.2.labels)
    (htest : ∀ e ∈ m, chainFor e.1 = [] →
      (".test" : Label) ∉ e.2.labels) :
    ∀ d, ReachD (Directory.fromList testRepoDirectory m) d →
      d.childLabels.Nodup := by
  intro d hreach
  have hPQ := fromList_childLabels_nodup m hchains hnames hnest htest
  obtain ⟨q, hq⟩ := reach_dirAt hPQ d hreach
  exact hPQ q d hq

end Surf

namespace Surf

/-- C5 witness: a two-entry mapping (a root file "a" and a directory "foo"
holding file "b") satisfies the hypotheses, and the built root directory —
reachable from itself — has pairwise distinct child labels. -/
theorem c5_witness :
    ((([(Path.rootP, (⟨"a", []⟩, [])),
       (⟨"foo", []⟩, (⟨"b", []⟩, []))] : List (Path × Files)).map
        fun e => chainFor e.1).Nodup) ∧
    (Directory.fromList testRepoDirectory
      ([(Path.rootP, (⟨"a", []⟩, [])),
       (⟨"foo", []⟩, (⟨"b", []⟩, []))] :
        List (Path × Files))).childLabels.Nodup := by
  refine ⟨by decide, ?_⟩
  refine c5_uniqueness_amended _ (by decide) (by decide) ?_ (by decide) _
    (ReachD.refl _)
  intro e1 he1 e2 he2 x rest hc
  simp only [List.mem_cons, List.not_mem_nil, or_false] at he1 he2
  rcases he1 with rfl | rfl <;> rcases he2 with rfl | rfl <;>
    simp [chainFor, Path.isRoot, Path.rootP, Label.rootL, Path.splitLast,
      Path.split, Files.labels, Files.toList] at hc ⊢
  rw [← hc.1]
  decide

end Surf

namespace Surf

theorem findSome?_fileView_find? :
    ∀ (es : List DirectoryContents) (n : Label),
    es.findSome? (fileView n) =
      (es.filterMap fileOf).find? fun f => decide (f.filename = n) := by
  intro es
  induction es with
  | nil => intro n; rfl
  | cons e rest ih =>
    intro n
    rw [List.findSome?_cons]
    cases e with
    | file f =>
      rw [show (DirectoryContents.file f :: rest).filterMap fileOf =
        f :: rest.filterMap fileOf from rfl, List.find?_cons]
      by_cases h : f.filename = n
      · rw [show fileView n (.file f) = some f by simp [fileView, h]]
        simp [h]
      · rw [show fileView n (.file f) = none by simp [fileView, h]]
        have hd : (decide (f.filename = n)) = false := by simp [h]
        rw [hd]
        exact ih n
    | subDirectory s =>
      rw [show fileView n (.subDirectory s) = none from rfl,
        show (DirectoryContents.subDirectory s :: rest).filterMap fileOf =
          rest.filterMap fileOf from rfl]
      exact ih n
    | repo =>
      rw [show fileView n DirectoryContents.repo = none from rfl,
        show (DirectoryContents.repo :: rest).filterMap fileOf =
          rest.filterMap fileOf from rfl]
      exact ih n

theorem fileInDirectory_find? (d : Directory) (n : Label) :
    d.fileInDirectory n =
      d.filesSeq.find? fun f => decide (f.filename = n) :=
  findSome?_fileView_find? d.entriesList n

theorem find?_nodup_names :
    ∀ (L : List File) (f : File), f ∈ L →
    (L.map File.filename).Nodup →
    (L.find? fun g => decide (g.filename = f.filename)) = some f := by
  intro L
  induction L with
  | nil => intro f hf _; exact absurd hf (List.not_mem_nil f)
  | cons h t ih =>
    intro f hf hnd
    rw [List.map_cons, List.nodup_cons] at hnd
    rw [List.find?_cons]
    by_cases hh : h.filename = f.filename
    · rw [show (decide (h.filename = f.filename)) = true by simp [hh]]
      cases hf with
      | head => rfl
      | tail _ hm =>
        exact absurd (hh ▸ List.mem_map_of_mem File.filename hm) hnd.1
    · rw [show (decide (h.filename = f.filename)) = false by simp [hh]]
      cases hf with
      | head => exact absurd rfl hh
      | tail _ hm => exact ih f hm hnd.2

theorem dirAt_isSome_of_filesAt_ne {d : Directory} {q : List Label}
    (h : filesAt d q ≠ []) : ∃ D, dirAt d q = some D := by
  cases hD : dirAt d q with
  | none => exact absurd (filesAt_of_dirAt_none hD) h
  | some D => exact ⟨D, rfl⟩

/-- C1 counterexample: for the one-entry mapping at directory path "foo",
`find_directory` at that very path returns None (the tree's root is labelled
"~", and find_directory requires the first path segment to match it), so the
claimed round trip fails. -/
theorem c1_counterexample :
    (Directory.fromList testRepoDirectory
      ([((⟨"foo", []⟩ : Path), (⟨"a", [7]⟩, []))] :
        List (Path × Files))).findDirectory ⟨"foo", []⟩ = none := by
  rw [findDirectory_eq, fromList_eq, if_neg]
  rw [fromList_fold_label]
  decide

end Surf

namespace Surf
/-- C1 (amended): for every mapping whose entries carry pairwise distinct
chains and per-entry distinct file names, every (key, file) pair of the
mapping round-trips at the path where `Directory::from` really stores it:
the root label "~" followed by the key's chain (its split_last prefix plus
leaf). find_directory of that path is present and find_file of that path
extended with the file's name returns exactly that file. find_directory
returns None for every path whose first label is not the root label "~" —
in particular for every key that does not start with "~". -/
theorem c1_roundtrip_amended (m : List (Path × Files))
    (hchains : (m.map fun e => chainFor e.1).Nodup)
    (hnames : ∀ e ∈ m, e.2.labels.Nodup) :
    (∀ p : Path, p.hd ≠ Label.rootL →
      (Directory.fromList testRepoDirectory m).findDirectory p = none) ∧
    ∀ e ∈ m, ∀ f ∈ e.2.toList,
      ((Directory.fromList testRepoDirectory m).findDirectory
        ⟨Label.rootL, chainFor e.1⟩).isSome ∧
      (Directory.fromList testRepoDirectory m).findFile
        ⟨Label.rootL, chainFor e.1 ++ [f.filename]⟩ = some f := by
  have hlab : (Directory.fromList testRepoDirectory m).label =
      Label.rootL := by
    rw [fromList_eq, fromList_fold_label]
    rfl
  constructor
  · intro p hp
    rw [findDirectory_eq, hlab, if_neg hp]
  intro e he f hf
  have hfiles_c : filesAt (Directory.fromList testRepoDirectory m)
      (chainFor e.1) = e.2.toList := by
    rw [fromList_eq, fromList_fold_files, filesAt_emptyRoot,
      List.nil_append]
    exact filesFor_eq_of_mem m hchains e he
  have hne : filesAt (Directory.fromList testRepoDirectory m)
      (chainFor e.1) ≠ [] := by
    rw [hfiles_c]
    simp [Files.toList]
  obtain ⟨D, hD⟩ := dirAt_isSome_of_filesAt_ne hne
  have hDseq : D.filesSeq = e.2.toList := by
    rw [← filesAt_of_dirAt hD, hfiles_c]
  refine ⟨?_, ?_⟩
  · rw [findDirectory_eq, hlab, if_pos rfl]
    rw [show (⟨Label.rootL, chainFor e.1⟩ : Path).tl = chainFor e.1
      from rfl, hD]
    rfl
  · by_cases hb : Label.rootL = f.filename ∧ chainFor e.1 = []
    · have hsplit : (⟨Label.rootL, chainFor e.1 ++ [f.filename]⟩ :
          Path).splitLast = ([], f.filename) := by
        rw [splitLast_concat, if_pos hb]
      rw [findFile_eq_nil _ _ _ hsplit, fileInDirectory_find?]
      have hseq : (Directory.fromList testRepoDirectory m).filesSeq =
          e.2.toList := by
        rw [← filesAt_nil, ← hb.2]
        exact hfiles_c
      rw [hseq]
      exact find?_nodup_names e.2.toList f hf (hnames e he)
    · have hsplit : (⟨Label.rootL, chainFor e.1 ++ [f.filename]⟩ :
          Path).splitLast = (Label.rootL :: chainFor e.1, f.filename) :=
        splitLast_concat_ne _ _ _ hb
      rw [findFile_eq_cons _ _ _ _ _ hsplit]
      rw [findDirectory_eq, hlab, if_pos rfl]
      rw [show (⟨Label.rootL, chainFor e.1⟩ : Path).tl = chainFor e.1
        from rfl, hD, Option.some_bind, fileInDirectory_find?, hDseq]
      exact find?_nodup_names e.2.toList f hf (hnames e he)

/-- C1 witness: the mapping storing file "a" (contents [7]) under directory
path "foo" satisfies the hypotheses; find_directory at the key "foo" itself
is None, while the directory is found at ~/foo and the file at ~/foo/a with
exactly its content. -/
theorem c1_witness :
    ((([((⟨"foo", []⟩ : Path), (⟨"a", [7]⟩, []))] :
        List (Path × Files)).map fun e => chainFor e.1).Nodup) ∧
    (Directory.fromList testRepoDirectory
      ([((⟨"foo", []⟩ : Path), (⟨"a", [7]⟩, []))] :
        List (Path × Files))).findDirectory ⟨"foo", []⟩ = none ∧
    ((Directory.fromList testRepoDirectory
      ([((⟨"foo", []⟩ : Path), (⟨"a", [7]⟩, []))] :
        List (Path × Files))).findDirectory
      ⟨Label.rootL, chainFor (⟨"foo", []⟩ : Path)⟩).isSome ∧
    (Directory.fromList testRepoDirectory
      ([((⟨"foo", []⟩ : Path), (⟨"a", [7]⟩, []))] :
        List (Path × Files))).findFile
      ⟨Label.rootL, chainFor (⟨"foo", []⟩ : Path) ++ ["a"]⟩ =
      some ⟨"a", [7]⟩ := by
  have h := c1_roundtrip_amended
    ([((⟨"foo", []⟩ : Path), (⟨"a", [7]⟩, []))] : List (Path × Files))
    (by decide) (by decide)
  have h2 := h.2 ((⟨"foo", []⟩ : Path),
      ((⟨"a", [7]⟩ : File), ([] : List File)))
    (by decide) ⟨"a", [7]⟩ (by decide)
  exact ⟨by decide, h.1 ⟨"foo", []⟩ (by decide), h2.1, h2.2⟩

end Surf
